import Mathlib

/-!
Unidirectional torus topology (`src/networks/unidirectional_torus.cpp`).

A shallow embedding of the topology builder of the unidirectional torus and
proofs about its addressing scheme.

Conventions of the embedding:

* C++ `int` is `Int`; `/` and `%` are the truncating `Int.tdiv` and `Int.tmod`.
* The size and channel arithmetic is given in two readings. `_ComputeSize`,
  `_EastChannel`, `_BuildNet` and `construct` compute on exact integers: results
  about them speak about runs in which every intermediate value fits an `int`.
  `_ComputeSize32`, `_EastChannel32`, `_BuildNet32` and `construct32` compute
  `_n*_size`, `_n*node` and `base + off` in 32-bit `int`, wrapping modulo `2^32`.
  The two readings agree when `n*k^n ≤ 2^31 - 1` (`construct32_eq_construct`).
* A member function takes the member variables it reads (`_k`, `_n`) as
  leading arguments; a member function that writes members takes and returns
  the whole object.
* `for ( int i = 0; i < n; ++i )` is a left fold over `0, 1, ..., n-1`.
* Channel objects are represented by what the builder does to them: the
  latency last given to them with `SetLatency` (`none` when never set).
-/

namespace UnidirectionalTorus

/-! ## Collaborators -/

/-- Modelled from the spec: `powi` (misc_utils) is not among the sources. The
spec gives `size = k^n` for the value `powi( _k, _n )`; an exponent below zero
is read as zero. -/
def powi (x y : Int) : Int := x ^ y.toNat

/-- The three integers the topology reads from the configuration with
`config.GetInt`. -/
structure Configuration where
  k : Int
  n : Int
  use_noc_latency : Int
  deriving DecidableEq, Repr

/-- A reference to one of the channel objects owned by the network: an element
of `_chan`, `_chan_cred`, `_inject`, `_inject_cred`, `_eject`, `_eject_cred`. -/
inductive ChannelRef where
  | _chan (i : Int)
  | _chan_cred (i : Int)
  | _inject (node : Int)
  | _inject_cred (node : Int)
  | _eject (node : Int)
  | _eject_cred (node : Int)
  deriving DecidableEq, Repr

/-- Modelled from the spec: the router class is not among the sources. The spec
describes a factory that takes a name, a node identity, an input-port count and
an output-port count, and a router that supports `AddInputChannel(channel,
credit-channel)` and `AddOutputChannel(channel, credit-channel)`; the model
records the bound pairs in call order. -/
structure Router where
  name : String
  id : Int
  inputs : Int
  outputs : Int
  input_channels : List (ChannelRef × ChannelRef)
  output_channels : List (ChannelRef × ChannelRef)
  deriving DecidableEq, Repr

/-- The router factory `Router::NewRouter( config, this, name, node, inputs, outputs )`. -/
def Router.NewRouter (name : String) (id inputs outputs : Int) : Router :=
  { name := name, id := id, inputs := inputs, outputs := outputs,
    input_channels := [], output_channels := [] }

/-- The call `router->AddInputChannel( channel, backchannel )`. -/
def Router.AddInputChannel (r : Router) (channel backchannel : ChannelRef) : Router :=
  { r with input_channels := r.input_channels ++ [(channel, backchannel)] }

/-- The call `router->AddOutputChannel( channel, backchannel )`. -/
def Router.AddOutputChannel (r : Router) (channel backchannel : ChannelRef) : Router :=
  { r with output_channels := r.output_channels ++ [(channel, backchannel)] }

/-- The call `chans[i]->SetLatency( latency )` on a vector of channels, each
represented by its latency. -/
def SetLatency (chans : List (Option Int)) (i : Int) (latency : Int) : List (Option Int) :=
  if 0 ≤ i then chans.set i.toNat (some latency) else chans

/-- The counted loop `for ( int i = 0; i < n; ++i ) s = body( s, i )`. -/
def forLoop {σ : Type} (n : Int) (body : σ → Int → σ) (init : σ) : σ :=
  (List.range n.toNat).foldl (fun s (i : Nat) => body s (i : Int)) init

/-! ## The network object -/

/-- The members of `UnidirectionalTorus` and of its base class that the
builder touches, with the two process-wide globals `gK` and `gN`. -/
structure Network where
  _k : Int
  _n : Int
  gK : Int
  gN : Int
  _size : Int
  _channels : Int
  _nodes : Int
  _routers : List Router
  _timed_modules : List Int
  _chan : List (Option Int)
  _chan_cred : List (Option Int)
  _inject : List (Option Int)
  _eject : List (Option Int)
  deriving DecidableEq, Repr

/-- Modelled from the spec: the base-class constructor `Network( config, name )`
is not among the sources; every member it leaves is overwritten by
`_ComputeSize` and `_Alloc` before the builder reads it. -/
def Network.base : Network :=
  { _k := 0, _n := 0, gK := 0, gN := 0, _size := 0, _channels := 0, _nodes := 0,
    _routers := [], _timed_modules := [], _chan := [], _chan_cred := [],
    _inject := [], _eject := [] }

/-- Method `UnidirectionalTorus::_ComputeSize`, on exact integers; with the
product in `int` it is `_ComputeSize32`. -/
def _ComputeSize (self : Network) (config : Configuration) : Network :=
  let _k := config.k
  let _n := config.n
  let _size := powi _k _n
  { self with
    _k := _k, _n := _n, gK := _k, gN := _n,
    _size := _size, _channels := _n * _size, _nodes := _size }

/-- Modelled from the spec: `Network::_Alloc` is not among the sources. The
spec has the network own one channel and one credit channel per channel
identity, one injection and one ejection channel per node, and the array of
per-node routers; no latency has been set yet. -/
def _Alloc (self : Network) : Network :=
  { self with
    _routers := [], _timed_modules := [],
    _chan := List.replicate self._channels.toNat none,
    _chan_cred := List.replicate self._channels.toNat none,
    _inject := List.replicate self._nodes.toNat none,
    _eject := List.replicate self._nodes.toNat none }

/-! ## Address functions -/

/-- Method `UnidirectionalTorus::_EastChannel`, on exact integers; with the
product and the sum in `int` it is `_EastChannel32`. -/
def _EastChannel (_n : Int) (node dim : Int) : Int :=
  let base := _n * node
  let off := dim
  base + off

/-- Method `UnidirectionalTorus::_SouthChannel`. -/
def _SouthChannel (_n : Int) (node dim : Int) : Int :=
  if dim = 1 then
    let base := _n * node
    let off := dim
    base + off
  else
    _EastChannel _n node dim

/-- Method `UnidirectionalTorus::_EastNode`. -/
def _EastNode (_k : Int) (node dim : Int) : Int :=
  let k_to_dim := powi _k dim
  let loc_in_dim := (node.tdiv k_to_dim).tmod _k
  if loc_in_dim = _k - 1 then
    node - (_k - 1) * k_to_dim
  else
    node + k_to_dim

/-- Method `UnidirectionalTorus::_SouthNode`. -/
def _SouthNode (_k : Int) (node dim : Int) : Int :=
  let k_to_dim := powi _k dim
  let loc_in_dim := (node.tdiv k_to_dim).tmod _k
  if loc_in_dim = 0 then
    node + (_k - 1) * k_to_dim
  else
    node - k_to_dim

/-- Method `UnidirectionalTorus::_WestNode`. -/
def _WestNode (_k : Int) (node dim : Int) : Int :=
  let k_to_dim := powi _k dim
  let loc_in_dim := (node.tdiv k_to_dim).tmod _k
  if loc_in_dim = 0 then
    node + (_k - 1) * k_to_dim
  else
    node - k_to_dim

/-- Method `UnidirectionalTorus::_NorthNode`. -/
def _NorthNode (_k : Int) (node dim : Int) : Int :=
  let k_to_dim := powi _k dim
  let loc_in_dim := (node.tdiv k_to_dim).tmod _k
  if loc_in_dim = _k - 1 then
    node - (_k - 1) * k_to_dim
  else
    node + k_to_dim

/-! ## The builder -/

/-- The naming loop of `_BuildNet`,
`for ( dim_offset = _size / _k; dim_offset >= 1; dim_offset /= _k )
   router_name << "_" << ( node / dim_offset ) % _k;`
entered with the current `dim_offset`; the first argument bounds the number of
iterations. -/
def routerNameLoop (_k node : Int) : Nat → Int → String → String
  | 0, _, router_name => router_name
  | fuel + 1, dim_offset, router_name =>
    if dim_offset ≥ 1 then
      routerNameLoop _k node fuel (dim_offset.tdiv _k)
        (router_name ++ "_" ++ toString ((node.tdiv dim_offset).tmod _k))
    else
      router_name

/-- The name `_BuildNet` gives to the router of `node`. When `_k > 1` the
offset strictly decreases while it is at least 1, so `_size / _k` iterations
are enough for the loop to run to its end. -/
def routerName (_k _size node : Int) : String :=
  let router_name := "router"
  if _k > 1 then
    routerNameLoop _k node (_size.tdiv _k).toNat (_size.tdiv _k) router_name
  else
    router_name

/-- The body of the first `dim` loop of `_BuildNet`: bind the output channel
of `(node, dim)` and set its latency. The state is the router of `node` and
the network. -/
def outputStep (use_noc_latency : Bool) (node : Int) (st : Router × Network)
    (dim : Int) : Router × Network :=
  let latency : Int := 2
  let output_channel := _EastChannel st.2._n node dim
  let r := st.1.AddOutputChannel (ChannelRef._chan output_channel)
    (ChannelRef._chan_cred output_channel)
  if use_noc_latency then
    (r, { st.2 with
          _chan := SetLatency st.2._chan output_channel latency,
          _chan_cred := SetLatency st.2._chan_cred output_channel latency })
  else
    (r, { st.2 with
          _chan := SetLatency st.2._chan output_channel 1,
          _chan_cred := SetLatency st.2._chan_cred output_channel 1 })

/-- The neighbour whose outbound channel the second `dim` loop of `_BuildNet`
binds as the input of `(node, dim)`. -/
def neighbor_node (_k : Int) (node dim : Int) : Int :=
  if dim = 0 then
    _WestNode _k node dim
  else
    _NorthNode _k node dim

/-- The body of the second `dim` loop of `_BuildNet`: bind the input channel of
`(node, dim)`. -/
def inputStep (_k _n : Int) (node : Int) (r : Router) (dim : Int) : Router :=
  let input_channel := _EastChannel _n (neighbor_node _k node dim) dim
  r.AddInputChannel (ChannelRef._chan input_channel) (ChannelRef._chan_cred input_channel)

/-- The body of the `node` loop of `_BuildNet`. -/
def buildNode (use_noc_latency : Bool) (self : Network) (node : Int) : Network :=
  let router_name := routerName self._k self._size node
  let r := Router.NewRouter router_name node (self._n + 1) (self._n + 1)
  let st := forLoop self._n (outputStep use_noc_latency node) (r, self)
  let r := forLoop self._n (inputStep self._k self._n node) st.1
  let r := r.AddInputChannel (ChannelRef._inject node) (ChannelRef._inject_cred node)
  let r := r.AddOutputChannel (ChannelRef._eject node) (ChannelRef._eject_cred node)
  { st.2 with
    _routers := st.2._routers ++ [r],
    _timed_modules := st.2._timed_modules ++ [node],
    _inject := SetLatency st.2._inject node 1,
    _eject := SetLatency st.2._eject node 1 }

/-- Method `UnidirectionalTorus::_BuildNet`. The vector `_routers` is filled at the
indices `0, 1, ...` in this order, so it is the list of the routers built so
far. -/
def _BuildNet (self : Network) (config : Configuration) : Network :=
  let use_noc_latency : Bool := decide (config.use_noc_latency = 1)
  forLoop self._size (buildNode use_noc_latency) self

/-- The constructor `UnidirectionalTorus::UnidirectionalTorus`. The source has
no failing path (no assertion, exit or exception in `_ComputeSize` or
`_BuildNet`); the result type leaves room for one so that failure can be spoken
about. -/
def construct (config : Configuration) : Except String Network :=
  let self := _ComputeSize Network.base config
  let self := _Alloc self
  Except.ok (_BuildNet self config)

/-! ## Routing-function registration -/

/-- A routing-function handle (`tRoutingFunction`), a non-null pointer to a
routing function: the one this topology registers, or any other one, told
apart by its name. -/
inductive tRoutingFunction where
  | dim_order_unidirectional_torus
  | other (name : String)
  deriving DecidableEq, Repr

/-- Modelled from the spec: the registry `gRoutingFunctionMap` (routefunc) is not
among the sources. The spec describes "a process-wide mapping from string name
to routing-function pointer/handle"; a name without an entry is looked up as
`none`. -/
structure RoutingFunctionMap where
  find : String → Option tRoutingFunction

/-- The assignment `map[name] = f` of the registry: the entry of `name` is
created or overwritten, every other entry stays. -/
def RoutingFunctionMap.assign (m : RoutingFunctionMap) (name : String)
    (f : tRoutingFunction) : RoutingFunctionMap :=
  { find := fun s => if s = name then some f else m.find s }

/-- Method `UnidirectionalTorus::RegisterRoutingFunctions`, on the registry as
state. -/
def RegisterRoutingFunctions (gRoutingFunctionMap : RoutingFunctionMap) : RoutingFunctionMap :=
  gRoutingFunctionMap.assign ("dor_unidirectional_torus")
    tRoutingFunction.dim_order_unidirectional_torus

/-! ## Iterations of the naming loop -/

/-- The number of times the body of the naming loop of `_BuildNet` runs when it
is entered with `dim_offset`; the first argument bounds the count as in
`routerNameLoop`. -/
def routerNameLoopSteps (_k : Int) : Nat → Int → Nat
  | 0, _ => 0
  | fuel + 1, dim_offset =>
    if dim_offset ≥ 1 then
      routerNameLoopSteps _k fuel (dim_offset.tdiv _k) + 1
    else
      0

/-! ## The arithmetic of `int`

The source computes the channel number `_n*node + dim` and the channel count
`_n*_size` in 32-bit `int`. The definitions of this section are those of the
sections above with these three operations wrapping modulo `2^32`; they are
the reading in which the sizes of the network are not bounded beforehand. -/

/-- The value a 32-bit two's-complement `int` holds after an operation whose
exact result is `x`. -/
def wrap32 (x : Int) : Int := (x + 2147483648) % 4294967296 - 2147483648

/-- Method `UnidirectionalTorus::_ComputeSize`, the product `_n*_size` computed
in `int`. -/
def _ComputeSize32 (self : Network) (config : Configuration) : Network :=
  let _k := config.k
  let _n := config.n
  let _size := powi _k _n
  { self with
    _k := _k, _n := _n, gK := _k, gN := _n,
    _size := _size, _channels := wrap32 (_n * _size), _nodes := _size }

/-- Method `UnidirectionalTorus::_EastChannel`, the product `_n*node` and the sum
`base + off` computed in `int`. -/
def _EastChannel32 (_n : Int) (node dim : Int) : Int :=
  let base := wrap32 (_n * node)
  let off := dim
  wrap32 (base + off)

/-- The body of the first `dim` loop of `_BuildNet`, with `_EastChannel32`. -/
def outputStep32 (use_noc_latency : Bool) (node : Int) (st : Router × Network)
    (dim : Int) : Router × Network :=
  let latency : Int := 2
  let output_channel := _EastChannel32 st.2._n node dim
  let r := st.1.AddOutputChannel (ChannelRef._chan output_channel)
    (ChannelRef._chan_cred output_channel)
  if use_noc_latency then
    (r, { st.2 with
          _chan := SetLatency st.2._chan output_channel latency,
          _chan_cred := SetLatency st.2._chan_cred output_channel latency })
  else
    (r, { st.2 with
          _chan := SetLatency st.2._chan output_channel 1,
          _chan_cred := SetLatency st.2._chan_cred output_channel 1 })

/-- The body of the second `dim` loop of `_BuildNet`, with `_EastChannel32`. -/
def inputStep32 (_k _n : Int) (node : Int) (r : Router) (dim : Int) : Router :=
  let input_channel := _EastChannel32 _n (neighbor_node _k node dim) dim
  r.AddInputChannel (ChannelRef._chan input_channel) (ChannelRef._chan_cred input_channel)

/-- The body of the `node` loop of `_BuildNet`, with `_EastChannel32`. -/
def buildNode32 (use_noc_latency : Bool) (self : Network) (node : Int) : Network :=
  let router_name := routerName self._k self._size node
  let r := Router.NewRouter router_name node (self._n + 1) (self._n + 1)
  let st := forLoop self._n (outputStep32 use_noc_latency node) (r, self)
  let r := forLoop self._n (inputStep32 self._k self._n node) st.1
  let r := r.AddInputChannel (ChannelRef._inject node) (ChannelRef._inject_cred node)
  let r := r.AddOutputChannel (ChannelRef._eject node) (ChannelRef._eject_cred node)
  { st.2 with
    _routers := st.2._routers ++ [r],
    _timed_modules := st.2._timed_modules ++ [node],
    _inject := SetLatency st.2._inject node 1,
    _eject := SetLatency st.2._eject node 1 }

/-- Method `UnidirectionalTorus::_BuildNet`, with `_EastChannel32`. -/
def _BuildNet32 (self : Network) (config : Configuration) : Network :=
  let use_noc_latency : Bool := decide (config.use_noc_latency = 1)
  forLoop self._size (buildNode32 use_noc_latency) self

/-- The constructor `UnidirectionalTorus::UnidirectionalTorus`, with
`_ComputeSize32` and `_BuildNet32`. -/
def construct32 (config : Configuration) : Except String Network :=
  let self := _ComputeSize32 Network.base config
  let self := _Alloc self
  Except.ok (_BuildNet32 self config)

/-! ## Auxiliary definitions of the proofs

Closed forms of what the loops compute and the address functions on natural
numbers; each is related to the embedding of the source by a lemma below. -/

/-- The number `a` with its digit of weight `p` (radix `k`) replaced by `c`. -/
def withDigit (k p a c : Nat) : Nat := a / (p * k) * (p * k) + c * p + a % p

/-- The torus output bindings of `node`, in dimension order. -/
def torusOutputs (_n node : Int) : List (ChannelRef × ChannelRef) :=
  (List.range _n.toNat).map fun d : Nat =>
    (ChannelRef._chan (_EastChannel _n node d), ChannelRef._chan_cred (_EastChannel _n node d))

/-- The torus input bindings of `node`, in dimension order. -/
def torusInputs (_k _n node : Int) : List (ChannelRef × ChannelRef) :=
  (List.range _n.toNat).map fun d : Nat =>
    (ChannelRef._chan (_EastChannel _n (neighbor_node _k node d) d),
      ChannelRef._chan_cred (_EastChannel _n (neighbor_node _k node d) d))

/-- The router that one iteration of the `node` loop leaves in `_routers`. -/
def nodeRouter (_k _n _size node : Int) : Router :=
  { name := routerName _k _size node, id := node, inputs := _n + 1, outputs := _n + 1,
    input_channels := torusInputs _k _n node ++
      [(ChannelRef._inject node, ChannelRef._inject_cred node)],
    output_channels := torusOutputs _n node ++
      [(ChannelRef._eject node, ChannelRef._eject_cred node)] }

/-- The latency the first `dim` loop gives to a torus channel. -/
def torusLatency (use_noc_latency : Bool) : Int := if use_noc_latency then 2 else 1

/-- The latencies of a channel vector after the output loop of `node`. -/
def setNodeLatencies (_n : Int) (lat : Int) (chans : List (Option Int)) (node : Int) :
    List (Option Int) :=
  (List.range _n.toNat).foldl (fun c (d : Nat) => SetLatency c (_EastChannel _n node d) lat) chans

/-- The onward neighbour on natural numbers. -/
def eastN (k i d : Nat) : Nat := withDigit k (k ^ d) i ((i / k ^ d % k + 1) % k)

/-- The reverse neighbour on natural numbers. -/
def westN (k i d : Nat) : Nat := withDigit k (k ^ d) i ((i / k ^ d % k + k - 1) % k)

/-- The neighbour the builder takes the input of `(i, d)` from. -/
def nbrN (k i d : Nat) : Nat := if d = 0 then westN k i d else eastN k i d

/-- The node that takes its input along `d` from `i`. -/
def sinkN (k i d : Nat) : Nat := if d = 0 then eastN k i d else westN k i d

/-- The coordinate part of a router name: `_c` for the dimensions `j-1` down to
0, where `c` is the decimal coordinate `(node / k^d) mod k`. -/
def coordinatePieces (k node : Int) : Nat → String
  | 0 => ""
  | j + 1 => "_" ++ toString ((node / k ^ j) % k) ++ coordinatePieces k node j

/-- The characters of `coordinatePieces`, for natural numbers. -/
def pieceChars (k node : Nat) : Nat → List Char
  | 0 => []
  | j + 1 => '_' :: (Nat.toDigits 10 (node / k ^ j % k) ++ pieceChars k node j)

/-- The number a list of decimal digit characters stands for. -/
def digitsValue (l : List Char) : Nat :=
  l.foldl (fun acc ch => 10 * acc + (ch.toNat - 48)) 0

/-- The torus output bindings of `node` under `_EastChannel32`. -/
def torusOutputs32 (_n node : Int) : List (ChannelRef × ChannelRef) :=
  (List.range _n.toNat).map fun d : Nat =>
    (ChannelRef._chan (_EastChannel32 _n node d), ChannelRef._chan_cred (_EastChannel32 _n node d))

/-- The torus input bindings of `node` under `_EastChannel32`. -/
def torusInputs32 (_k _n node : Int) : List (ChannelRef × ChannelRef) :=
  (List.range _n.toNat).map fun d : Nat =>
    (ChannelRef._chan (_EastChannel32 _n (neighbor_node _k node d) d),
      ChannelRef._chan_cred (_EastChannel32 _n (neighbor_node _k node d) d))

/-- The router that one iteration of the `node` loop of `_BuildNet32` leaves in
`_routers`. -/
def nodeRouter32 (_k _n _size node : Int) : Router :=
  { name := routerName _k _size node, id := node, inputs := _n + 1, outputs := _n + 1,
    input_channels := torusInputs32 _k _n node ++
      [(ChannelRef._inject node, ChannelRef._inject_cred node)],
    output_channels := torusOutputs32 _n node ++
      [(ChannelRef._eject node, ChannelRef._eject_cred node)] }

/-- The latencies of a channel vector after the output loop of `node` under
`_EastChannel32`. -/
def setNodeLatencies32 (_n : Int) (lat : Int) (chans : List (Option Int)) (node : Int) :
    List (Option Int) :=
  (List.range _n.toNat).foldl (fun c (d : Nat) => SetLatency c (_EastChannel32 _n node d) lat) chans

/-! ## Mixed-radix arithmetic on natural numbers -/

theorem decomp (k p a : Nat) : a / (p * k) * (p * k) + (a / p % k) * p + a % p = a := by
  have h1 := Nat.div_add_mod a p
  have h2 := Nat.div_add_mod (a / p) k
  have h3 : a / (p * k) = a / p / k := (Nat.div_div_eq_div_mul a p k).symm
  rw [h3]
  have h4 : a / p / k * (p * k) + (a / p % k) * p = (k * (a / p / k) + a / p % k) * p := by ring
  rw [h4, h2]
  rw [Nat.mul_comm]; exact h1

theorem withDigit_self (k p a : Nat) : withDigit k p a (a / p % k) = a := decomp k p a

theorem withDigit_mod (k p a c : Nat) : withDigit k p a c % p = a % p := by
  unfold withDigit
  rcases Nat.eq_zero_or_pos p with hp | hp
  · subst hp; simp
  · have : a / (p * k) * (p * k) + c * p + a % p = a % p + p * (a / (p * k) * k + c) := by ring
    rw [this, Nat.add_mul_mod_self_left, Nat.mod_mod]

theorem withDigit_div (k p a c : Nat) (hp : 0 < p) :
    withDigit k p a c / p = a / (p * k) * k + c := by
  unfold withDigit
  have : a / (p * k) * (p * k) + c * p + a % p = a % p + p * (a / (p * k) * k + c) := by ring
  rw [this, Nat.add_mul_div_left _ _ hp, Nat.div_eq_of_lt (Nat.mod_lt _ hp)]
  simp

theorem withDigit_digit (k p a c : Nat) (hp : 0 < p) (hc : c < k) :
    withDigit k p a c / p % k = c := by
  rw [withDigit_div k p a c hp, Nat.add_comm, Nat.add_mul_mod_self_right]
  exact Nat.mod_eq_of_lt hc

theorem withDigit_high (k p a c : Nat) (hp : 0 < p) (hc : c < k) :
    withDigit k p a c / (p * k) = a / (p * k) := by
  rw [← Nat.div_div_eq_div_mul, withDigit_div k p a c hp, Nat.add_comm,
    Nat.add_mul_div_right _ _ (by omega : 0 < k), Nat.div_eq_of_lt hc]
  simp

theorem withDigit_withDigit (k p a c c' : Nat) (hp : 0 < p) (hc : c < k) :
    withDigit k p (withDigit k p a c) c' = withDigit k p a c' := by
  have h1 := withDigit_high k p a c hp hc
  have h2 := withDigit_mod k p a c
  unfold withDigit at *
  rw [h1, h2]

theorem withDigit_lt (k n dim a c : Nat) (hd : dim < n) (hc : c < k) (ha : a < k ^ n) :
    withDigit k (k ^ dim) a c < k ^ n := by
  have hk : 0 < k := by omega
  have hp : 0 < k ^ dim := pow_pos hk dim
  have hn : k ^ n = k ^ (n - dim - 1) * (k ^ dim * k) := by
    rw [← pow_succ, ← pow_add]; congr 1; omega
  have hpk : 0 < k ^ dim * k := Nat.mul_pos hp hk
  rw [hn] at ha ⊢
  rw [← Nat.div_lt_iff_lt_mul hpk] at ha ⊢
  rw [withDigit_high k _ a c hp hc]; exact ha

theorem withDigit_other (k dim d a c : Nat) (hk : 0 < k) (hc : c < k) (hd : d ≠ dim) :
    withDigit k (k ^ dim) a c / k ^ d % k = a / k ^ d % k := by
  have hp : 0 < k ^ dim := pow_pos hk dim
  rcases Nat.lt_or_gt_of_ne hd with h | h
  · have hdvd : k ^ d * k ∣ k ^ dim := by
      rw [← pow_succ]; exact pow_dvd_pow k h
    rw [← Nat.mod_mul_right_div_self, ← Nat.mod_mul_right_div_self a,
      ← Nat.mod_mod_of_dvd _ hdvd, withDigit_mod, Nat.mod_mod_of_dvd _ hdvd]
  · have hn : k ^ d = k ^ dim * k * k ^ (d - dim - 1) := by
      rw [← pow_succ, ← pow_add]; congr 1; omega
    rw [hn, ← Nat.div_div_eq_div_mul, ← Nat.div_div_eq_div_mul a,
      withDigit_high k _ a c hp hc]

/-! ## From the `int` functions to natural numbers -/

theorem powi_natCast (k dim : Nat) : powi (k : Int) (dim : Int) = ((k ^ dim : Nat) : Int) := by
  simp [powi]

theorem loc_in_dim_natCast (k node dim : Nat) :
    (Int.tdiv (node : Int) (powi (k : Int) (dim : Int))).tmod (k : Int)
      = ((node / k ^ dim % k : Nat) : Int) := by
  rw [powi_natCast, ← Int.ofNat_tdiv, ← Int.ofNat_tmod]

theorem eastNode_natCast (k node dim : Nat) (hk : 0 < k) :
    _EastNode (k : Int) (node : Int) (dim : Int)
      = ((withDigit k (k ^ dim) node ((node / k ^ dim % k + 1) % k) : Nat) : Int) := by
  have hd := decomp k (k ^ dim) node
  have hlt : node / k ^ dim % k < k := Nat.mod_lt _ hk
  obtain ⟨m, rfl⟩ : ∃ m, k = m + 1 := ⟨k - 1, by omega⟩
  unfold _EastNode withDigit
  simp only []
  rw [loc_in_dim_natCast, powi_natCast]
  generalize node / ((m + 1) ^ dim * (m + 1)) * ((m + 1) ^ dim * (m + 1)) = A at hd ⊢
  generalize node / (m + 1) ^ dim % (m + 1) = c at hd hlt ⊢
  generalize node % (m + 1) ^ dim = r at hd ⊢
  generalize (m + 1) ^ dim = p at hd ⊢
  by_cases hc : c = m
  · subst hc
    have h0 : (c + 1) % (c + 1) = 0 := Nat.mod_self _
    rw [if_pos (by push_cast; ring), h0]
    subst hd
    push_cast; ring
  · have h1 : (c + 1) % (m + 1) = c + 1 := Nat.mod_eq_of_lt (by omega)
    rw [if_neg (by push_cast; intro h; apply hc; omega), h1]
    subst hd
    push_cast; ring

theorem westNode_natCast (k node dim : Nat) (hk : 0 < k) :
    _WestNode (k : Int) (node : Int) (dim : Int)
      = ((withDigit k (k ^ dim) node ((node / k ^ dim % k + k - 1) % k) : Nat) : Int) := by
  have hd := decomp k (k ^ dim) node
  have hlt : node / k ^ dim % k < k := Nat.mod_lt _ hk
  obtain ⟨m, rfl⟩ : ∃ m, k = m + 1 := ⟨k - 1, by omega⟩
  unfold _WestNode withDigit
  simp only []
  rw [loc_in_dim_natCast, powi_natCast]
  generalize node / ((m + 1) ^ dim * (m + 1)) * ((m + 1) ^ dim * (m + 1)) = A at hd ⊢
  generalize node / (m + 1) ^ dim % (m + 1) = c at hd hlt ⊢
  generalize node % (m + 1) ^ dim = r at hd ⊢
  generalize (m + 1) ^ dim = p at hd ⊢
  by_cases hc : c = 0
  · subst hc
    have h0 : (0 + (m + 1) - 1) % (m + 1) = m := by
      rw [show 0 + (m + 1) - 1 = m by omega]; exact Nat.mod_eq_of_lt (by omega)
    rw [if_pos (by simp), h0]
    subst hd
    push_cast; ring
  · have h1 : (c + (m + 1) - 1) % (m + 1) = c - 1 := by
      rw [show c + (m + 1) - 1 = (c - 1) + (m + 1) by omega, Nat.add_mod_right]
      exact Nat.mod_eq_of_lt (by omega)
    rw [if_neg (by intro h; apply hc; omega), h1]
    subst hd
    obtain ⟨c', rfl⟩ : ∃ c', c = c' + 1 := ⟨c - 1, by omega⟩
    simp only [Nat.add_sub_cancel]
    push_cast; ring

theorem east_digit (k c : Nat) (hk : 0 < k) : ((c + k - 1) % k + 1) % k = c % k := by
  rw [Nat.mod_add_mod, show c + k - 1 + 1 = c + k by omega, Nat.add_mod_right]

theorem west_digit (k c : Nat) (hk : 0 < k) : ((c + 1) % k + k - 1) % k = c % k := by
  rw [Nat.add_sub_assoc hk, Nat.mod_add_mod, show c + 1 + (k - 1) = c + k by omega,
    Nat.add_mod_right]

theorem east_west_nat (k node dim : Nat) (hk : 0 < k) :
    _EastNode (k : Int) (_WestNode (k : Int) (node : Int) (dim : Int)) (dim : Int) = (node : Int) := by
  have hp : 0 < k ^ dim := pow_pos hk dim
  rw [westNode_natCast k node dim hk, eastNode_natCast _ _ _ hk,
    withDigit_digit _ _ _ _ hp (Nat.mod_lt _ hk),
    withDigit_withDigit _ _ _ _ _ hp (Nat.mod_lt _ hk), east_digit k _ hk, Nat.mod_mod,
    withDigit_self]

theorem west_east_nat (k node dim : Nat) (hk : 0 < k) :
    _WestNode (k : Int) (_EastNode (k : Int) (node : Int) (dim : Int)) (dim : Int) = (node : Int) := by
  have hp : 0 < k ^ dim := pow_pos hk dim
  rw [eastNode_natCast k node dim hk, westNode_natCast _ _ _ hk,
    withDigit_digit _ _ _ _ hp (Nat.mod_lt _ hk),
    withDigit_withDigit _ _ _ _ _ hp (Nat.mod_lt _ hk), west_digit k _ hk, Nat.mod_mod,
    withDigit_self]

theorem east_iterate_nat (k node dim : Nat) (hk : 0 < k) (j : Nat) :
    (fun x => _EastNode (k : Int) x (dim : Int))^[j] (node : Int)
      = ((withDigit k (k ^ dim) node ((node / k ^ dim % k + j) % k) : Nat) : Int) := by
  have hp : 0 < k ^ dim := pow_pos hk dim
  induction j with
  | zero => simp [withDigit_self]
  | succ j ih =>
    rw [Function.iterate_succ_apply', ih, eastNode_natCast _ _ _ hk,
      withDigit_digit _ _ _ _ hp (Nat.mod_lt _ hk),
      withDigit_withDigit _ _ _ _ _ hp (Nat.mod_lt _ hk), Nat.mod_add_mod, Nat.add_assoc]

/-- C4. For `k > 1`, every node `node ≥ 0` and every dimension `dim ≥ 0` (in
particular for `node` in `[0, k^n)` and `dim` in `[0, n)`), the onward and the
reverse neighbour are mutually inverse: `_EastNode(_WestNode(node,dim),dim) = node`
and `_WestNode(_EastNode(node,dim),dim) = node`. -/
theorem eastNode_westNode_inverse (k node dim : Int) (hk : 1 < k) (h0 : 0 ≤ node)
    (hd0 : 0 ≤ dim) :
    _EastNode k (_WestNode k node dim) dim = node ∧
      _WestNode k (_EastNode k node dim) dim = node := by
  lift k to ℕ using (by omega)
  lift node to ℕ using h0
  lift dim to ℕ using hd0
  have hk' : 0 < k := by omega
  exact ⟨east_west_nat k node dim hk', west_east_nat k node dim hk'⟩

theorem eastNode_westNode_inverse_witness :
    (1 : Int) < 3 ∧ (0 : Int) ≤ 2 ∧ (0 : Int) ≤ 1 ∧
      _EastNode 3 (_WestNode 3 2 1) 1 = 2 ∧ _WestNode 3 (_EastNode 3 2 1) 1 = 2 :=
  ⟨by decide, by decide, by decide,
    eastNode_westNode_inverse 3 2 1 (by decide) (by decide) (by decide)⟩

/-- C5. For `k ≥ 1`, `n ≥ 1`, `node` in `[0, k^n)` and `dim` in `[0, n)`, the
onward neighbour `e = _EastNode(node,dim)` lies in `[0, k^n)`, its coordinate
along `dim` is `((node / k^dim) mod k + 1) mod k`, and its coordinate along every
other dimension `d` equals that of `node`. With `k = 4`: `_EastNode(0,0) = 1` and
`_EastNode(3,0) = 0`. -/
theorem eastNode_coordinates (k n node dim : Int) (hk : 1 ≤ k) (hn : 1 ≤ n)
    (h0 : 0 ≤ node) (h1 : node < k ^ n.toNat) (hd0 : 0 ≤ dim) (hd1 : dim < n) :
    (0 ≤ _EastNode k node dim ∧ _EastNode k node dim < k ^ n.toNat) ∧
      (_EastNode k node dim / k ^ dim.toNat) % k = ((node / k ^ dim.toNat) % k + 1) % k ∧
      (∀ d : Int, 0 ≤ d → d ≠ dim →
        (_EastNode k node dim / k ^ d.toNat) % k = (node / k ^ d.toNat) % k) ∧
      (_EastNode 4 0 0 = 1 ∧ _EastNode 4 3 0 = 0) := by
  lift k to ℕ using (by omega)
  lift n to ℕ using (by omega)
  lift node to ℕ using h0
  lift dim to ℕ using hd0
  have hk' : 0 < k := by omega
  have hp : 0 < k ^ dim := pow_pos hk' dim
  have hc : (node / k ^ dim % k + 1) % k < k := Nat.mod_lt _ hk'
  rw [eastNode_natCast k node dim hk']
  simp only [Int.toNat_ofNat] at h1 ⊢
  refine ⟨⟨Int.natCast_nonneg _, ?_⟩, ?_, ?_, by decide⟩
  · have := withDigit_lt k n dim node _ (by omega) hc (by exact_mod_cast h1)
    exact_mod_cast this
  · have := withDigit_digit k (k ^ dim) node _ hp hc
    exact_mod_cast this
  · intro d hd hne
    lift d to ℕ using hd
    have := withDigit_other k dim d node _ hk' hc (by intro h; apply hne; rw [h])
    simp only [Int.toNat_ofNat]
    exact_mod_cast this

theorem eastNode_coordinates_witness :
    ((1 : Int) ≤ 4 ∧ (1 : Int) ≤ 2 ∧ (0 : Int) ≤ 7 ∧ (7 : Int) < 4 ^ (2 : Int).toNat ∧
      (0 : Int) ≤ 0 ∧ (0 : Int) < 2) ∧
    (0 ≤ _EastNode 4 7 0 ∧ _EastNode 4 7 0 < 4 ^ (2 : Int).toNat) ∧
      (_EastNode 4 7 0 / 4 ^ (0 : Int).toNat) % 4 = ((7 / 4 ^ (0 : Int).toNat) % 4 + 1) % 4 ∧
      (∀ d : Int, 0 ≤ d → d ≠ 0 →
        (_EastNode 4 7 0 / 4 ^ d.toNat) % 4 = (7 / 4 ^ d.toNat) % 4) ∧
      (_EastNode 4 0 0 = 1 ∧ _EastNode 4 3 0 = 0) :=
  ⟨by decide, eastNode_coordinates 4 2 7 0 (by decide) (by decide) (by decide) (by decide)
    (by decide) (by decide)⟩

/-- C6. For `k ≥ 1`, `n ≥ 1`, `node` in `[0, k^n)` and `dim` in `[0, n)`, the
reverse neighbour `w = _WestNode(node,dim)` lies in `[0, k^n)`, its coordinate
along `dim` is `((node / k^dim) mod k + k - 1) mod k`, and its coordinate along
every other dimension `d` equals that of `node`. -/
theorem westNode_coordinates (k n node dim : Int) (hk : 1 ≤ k) (hn : 1 ≤ n)
    (h0 : 0 ≤ node) (h1 : node < k ^ n.toNat) (hd0 : 0 ≤ dim) (hd1 : dim < n) :
    (0 ≤ _WestNode k node dim ∧ _WestNode k node dim < k ^ n.toNat) ∧
      (_WestNode k node dim / k ^ dim.toNat) % k
        = ((node / k ^ dim.toNat) % k + k - 1) % k ∧
      (∀ d : Int, 0 ≤ d → d ≠ dim →
        (_WestNode k node dim / k ^ d.toNat) % k = (node / k ^ d.toNat) % k) := by
  lift k to ℕ using (by omega)
  lift n to ℕ using (by omega)
  lift node to ℕ using h0
  lift dim to ℕ using hd0
  have hk' : 0 < k := by omega
  have hp : 0 < k ^ dim := pow_pos hk' dim
  have hc : (node / k ^ dim % k + k - 1) % k < k := Nat.mod_lt _ hk'
  rw [westNode_natCast k node dim hk']
  simp only [Int.toNat_ofNat] at h1 ⊢
  refine ⟨⟨Int.natCast_nonneg _, ?_⟩, ?_, ?_⟩
  · have := withDigit_lt k n dim node _ (by omega) hc (by exact_mod_cast h1)
    exact_mod_cast this
  · have := withDigit_digit k (k ^ dim) node _ hp hc
    have hsub : ((node / k ^ dim % k + k - 1 : Nat) : Int)
        = (node : Int) / (k : Int) ^ dim % (k : Int) + (k : Int) - 1 := by
      rw [Nat.cast_sub (by omega)]; push_cast; ring
    rw [← hsub]
    exact_mod_cast this
  · intro d hd hne
    lift d to ℕ using hd
    have := withDigit_other k dim d node _ hk' hc (by intro h; apply hne; rw [h])
    simp only [Int.toNat_ofNat]
    exact_mod_cast this

theorem westNode_coordinates_witness :
    ((1 : Int) ≤ 4 ∧ (1 : Int) ≤ 2 ∧ (0 : Int) ≤ 4 ∧ (4 : Int) < 4 ^ (2 : Int).toNat ∧
      (0 : Int) ≤ 0 ∧ (0 : Int) < 2) ∧
    (0 ≤ _WestNode 4 4 0 ∧ _WestNode 4 4 0 < 4 ^ (2 : Int).toNat) ∧
      (_WestNode 4 4 0 / 4 ^ (0 : Int).toNat) % 4
        = ((4 / 4 ^ (0 : Int).toNat) % 4 + 4 - 1) % 4 ∧
      (∀ d : Int, 0 ≤ d → d ≠ 0 →
        (_WestNode 4 4 0 / 4 ^ d.toNat) % 4 = (4 / 4 ^ d.toNat) % 4) :=
  ⟨by decide, westNode_coordinates 4 2 4 0 (by decide) (by decide) (by decide) (by decide)
    (by decide) (by decide)⟩

/-- C7. For `k > 1`, every node `node ≥ 0` and every dimension `dim ≥ 0` (in
particular for `node` in `[0, k^n)` and `dim` in `[0, n)`), the onward neighbour
relation along `dim` is a directed ring of length exactly `k` through `node`:
applying `_EastNode(., dim)` `k` times to `node` gives `node` again, and applying
it `j` times with `1 ≤ j < k` gives a node other than `node`. -/
theorem eastNode_ring (k node dim : Int) (hk : 1 < k) (h0 : 0 ≤ node) (hd0 : 0 ≤ dim) :
    (fun x => _EastNode k x dim)^[k.toNat] node = node ∧
      ∀ j : Nat, 1 ≤ j → (j : Int) < k → (fun x => _EastNode k x dim)^[j] node ≠ node := by
  lift k to ℕ using (by omega)
  lift node to ℕ using h0
  lift dim to ℕ using hd0
  have hk' : 0 < k := by omega
  have hp : 0 < k ^ dim := pow_pos hk' dim
  have hc : node / k ^ dim % k < k := Nat.mod_lt _ hk'
  constructor
  · rw [Int.toNat_ofNat, east_iterate_nat k node dim hk', Nat.add_mod_right, Nat.mod_mod,
      withDigit_self]
  · intro j hj1 hjk h
    have hjk' : j < k := by exact_mod_cast hjk
    rw [east_iterate_nat k node dim hk'] at h
    have h' : withDigit k (k ^ dim) node ((node / k ^ dim % k + j) % k) = node := by
      exact_mod_cast h
    have hdig := withDigit_digit k (k ^ dim) node ((node / k ^ dim % k + j) % k) hp
      (Nat.mod_lt _ hk')
    rw [h'] at hdig
    generalize node / k ^ dim % k = c at hc hdig
    rcases Nat.lt_or_ge (c + j) k with hlt | hge
    · rw [Nat.mod_eq_of_lt hlt] at hdig; omega
    · rw [Nat.mod_eq_sub_mod hge, Nat.mod_eq_of_lt (by omega)] at hdig; omega

theorem eastNode_ring_witness :
    ((1 : Int) < 3 ∧ (0 : Int) ≤ 5 ∧ (0 : Int) ≤ 1) ∧
    ((fun x => _EastNode 3 x 1)^[(3 : Int).toNat] 5 = 5 ∧
      ∀ j : Nat, 1 ≤ j → (j : Int) < 3 → (fun x => _EastNode 3 x 1)^[j] 5 ≠ 5) :=
  ⟨by decide, eastNode_ring 3 5 1 (by decide) (by decide) (by decide)⟩

/-- On exact integers: for `k ≥ 1` and `n ≥ 1`, `_EastChannel(node,dim) = n*node + dim` is a
bijection from the pairs with `0 ≤ node < k^n`, `0 ≤ dim < n` onto `[0, n*k^n)`:
it maps the domain into the range, two pairs of the domain with the same
channel are equal, every channel of the range is the image of a pair, and the
image `c` of a pair gives the pair back as `node = c / n`, `dim = c % n`. -/
theorem eastChannel_bijection (k n : Int) (hk : 1 ≤ k) (hn : 1 ≤ n) :
    (∀ node dim : Int, 0 ≤ node → node < k ^ n.toNat → 0 ≤ dim → dim < n →
      (0 ≤ _EastChannel n node dim ∧ _EastChannel n node dim < n * k ^ n.toNat) ∧
        (_EastChannel n node dim).tdiv n = node ∧ (_EastChannel n node dim).tmod n = dim) ∧
    (∀ node dim node' dim' : Int, 0 ≤ node → node < k ^ n.toNat → 0 ≤ dim → dim < n →
      0 ≤ node' → node' < k ^ n.toNat → 0 ≤ dim' → dim' < n →
      _EastChannel n node dim = _EastChannel n node' dim' → node = node' ∧ dim = dim') ∧
    (∀ c : Int, 0 ≤ c → c < n * k ^ n.toNat →
      ∃ node dim : Int, (0 ≤ node ∧ node < k ^ n.toNat) ∧ (0 ≤ dim ∧ dim < n) ∧
        _EastChannel n node dim = c) := by
  have hdec : ∀ node dim : Int, 0 ≤ node → 0 ≤ dim → dim < n →
      (_EastChannel n node dim).tdiv n = node ∧ (_EastChannel n node dim).tmod n = dim := by
    intro node dim h0 hd0 hd1
    have hc0 : 0 ≤ n * node + dim := by positivity
    simp only [_EastChannel]
    rw [Int.tdiv_eq_ediv hc0 (by omega), Int.tmod_eq_emod hc0 (by omega)]
    constructor
    · rw [Int.add_comm, Int.add_mul_ediv_left _ _ (by omega), Int.ediv_eq_zero_of_lt hd0 hd1]
      simp
    · rw [Int.add_comm, Int.add_mul_emod_self_left]
      exact Int.emod_eq_of_lt hd0 hd1
  refine ⟨?_, ?_, ?_⟩
  · intro node dim h0 h1 hd0 hd1
    refine ⟨⟨?_, ?_⟩, hdec node dim h0 hd0 hd1⟩
    · simp only [_EastChannel]; positivity
    · simp only [_EastChannel]
      have : n * (node + 1) ≤ n * k ^ n.toNat := Int.mul_le_mul_of_nonneg_left (by omega) (by omega)
      have h2 : n * (node + 1) = n * node + n := by ring
      omega
  · intro node dim node' dim' h0 _ hd0 hd1 h0' _ hd0' hd1' h
    have a := hdec node dim h0 hd0 hd1
    have b := hdec node' dim' h0' hd0' hd1'
    rw [h] at a
    exact ⟨a.1.symm.trans b.1, a.2.symm.trans b.2⟩
  · intro c hc0 hc1
    refine ⟨c / n, c % n, ⟨Int.ediv_nonneg hc0 (by omega), ?_⟩,
      ⟨Int.emod_nonneg _ (by omega), Int.emod_lt_of_pos _ (by omega)⟩, ?_⟩
    · rw [Int.mul_comm] at hc1
      exact Int.ediv_lt_of_lt_mul (by omega) hc1
    · simp only [_EastChannel]
      exact Int.ediv_add_emod c n

theorem eastChannel_bijection_witness :
    ((1 : Int) ≤ 4 ∧ (1 : Int) ≤ 2) ∧
    (∀ node dim : Int, 0 ≤ node → node < 4 ^ (2 : Int).toNat → 0 ≤ dim → dim < 2 →
      (0 ≤ _EastChannel 2 node dim ∧ _EastChannel 2 node dim < 2 * 4 ^ (2 : Int).toNat) ∧
        (_EastChannel 2 node dim).tdiv 2 = node ∧ (_EastChannel 2 node dim).tmod 2 = dim) ∧
    (∀ node dim node' dim' : Int, 0 ≤ node → node < 4 ^ (2 : Int).toNat → 0 ≤ dim → dim < 2 →
      0 ≤ node' → node' < 4 ^ (2 : Int).toNat → 0 ≤ dim' → dim' < 2 →
      _EastChannel 2 node dim = _EastChannel 2 node' dim' → node = node' ∧ dim = dim') ∧
    (∀ c : Int, 0 ≤ c → c < 2 * 4 ^ (2 : Int).toNat →
      ∃ node dim : Int, (0 ≤ node ∧ node < 4 ^ (2 : Int).toNat) ∧ (0 ≤ dim ∧ dim < 2) ∧
        _EastChannel 2 node dim = c) :=
  ⟨by decide, eastChannel_bijection 4 2 (by decide) (by decide)⟩

/-- On exact integers: for every configured `k ≥ 1` and `n ≥ 1`, `_ComputeSize` sets
`_size = k^n`, `_nodes = _size` and `_channels = n * _size`, stores `k` and `n`
in `_k` and `_n` and publishes them as `gK` and `gN`. `k = 4, n = 2` gives size
16 and 32 channels, `k = 2, n = 1` gives size 2 and 2 channels. -/
theorem computeSize_spec (self : Network) (config : Configuration)
    (hk : 1 ≤ config.k) (hn : 1 ≤ config.n) :
    ((_ComputeSize self config)._size = config.k ^ config.n.toNat ∧
      (_ComputeSize self config)._nodes = (_ComputeSize self config)._size ∧
      (_ComputeSize self config)._channels = config.n * (_ComputeSize self config)._size ∧
      (_ComputeSize self config)._k = config.k ∧ (_ComputeSize self config)._n = config.n ∧
      (_ComputeSize self config).gK = config.k ∧ (_ComputeSize self config).gN = config.n) ∧
    ((_ComputeSize Network.base ⟨4, 2, 0⟩)._size = 16 ∧
      (_ComputeSize Network.base ⟨4, 2, 0⟩)._channels = 32) ∧
    ((_ComputeSize Network.base ⟨2, 1, 0⟩)._size = 2 ∧
      (_ComputeSize Network.base ⟨2, 1, 0⟩)._channels = 2) := by
  refine ⟨⟨rfl, rfl, rfl, rfl, rfl, rfl, rfl⟩, by decide, by decide⟩

theorem computeSize_spec_witness :
    ((1 : Int) ≤ 3 ∧ (1 : Int) ≤ 2) ∧
    ((_ComputeSize Network.base ⟨3, 2, 1⟩)._size = 3 ^ (2 : Int).toNat ∧
      (_ComputeSize Network.base ⟨3, 2, 1⟩)._nodes = (_ComputeSize Network.base ⟨3, 2, 1⟩)._size ∧
      (_ComputeSize Network.base ⟨3, 2, 1⟩)._channels
        = 2 * (_ComputeSize Network.base ⟨3, 2, 1⟩)._size ∧
      (_ComputeSize Network.base ⟨3, 2, 1⟩)._k = 3 ∧ (_ComputeSize Network.base ⟨3, 2, 1⟩)._n = 2 ∧
      (_ComputeSize Network.base ⟨3, 2, 1⟩).gK = 3 ∧ (_ComputeSize Network.base ⟨3, 2, 1⟩).gN = 2) ∧
    ((_ComputeSize Network.base ⟨4, 2, 0⟩)._size = 16 ∧
      (_ComputeSize Network.base ⟨4, 2, 0⟩)._channels = 32) ∧
    ((_ComputeSize Network.base ⟨2, 1, 0⟩)._size = 2 ∧
      (_ComputeSize Network.base ⟨2, 1, 0⟩)._channels = 2) :=
  ⟨by decide, computeSize_spec Network.base ⟨3, 2, 1⟩ (by decide) (by decide)⟩

/-! ## The builder in closed form -/

theorem outputStep_eq (b : Bool) (node : Int) (st : Router × Network) (dim : Int) :
    outputStep b node st dim =
      (st.1.AddOutputChannel (ChannelRef._chan (_EastChannel st.2._n node dim))
          (ChannelRef._chan_cred (_EastChannel st.2._n node dim)),
        { st.2 with
          _chan := SetLatency st.2._chan (_EastChannel st.2._n node dim) (torusLatency b),
          _chan_cred :=
            SetLatency st.2._chan_cred (_EastChannel st.2._n node dim) (torusLatency b) }) := by
  cases b <;> rfl

theorem foldl_outputStep (b : Bool) (node : Int) (l : List Nat) (r : Router) (net : Network) :
    l.foldl (fun s (i : Nat) => outputStep b node s (i : Int)) (r, net) =
      ({ r with output_channels := r.output_channels ++ l.map fun d : Nat =>
            (ChannelRef._chan (_EastChannel net._n node d),
              ChannelRef._chan_cred (_EastChannel net._n node d)) },
        { net with
          _chan := l.foldl
            (fun c (d : Nat) => SetLatency c (_EastChannel net._n node d) (torusLatency b))
            net._chan,
          _chan_cred := l.foldl
            (fun c (d : Nat) => SetLatency c (_EastChannel net._n node d) (torusLatency b))
            net._chan_cred }) := by
  induction l generalizing r net with
  | nil => simp
  | cons d l ih =>
    rw [List.foldl_cons, outputStep_eq, ih]
    simp [Router.AddOutputChannel]

theorem foldl_inputStep (_k _n node : Int) (l : List Nat) (r : Router) :
    l.foldl (fun s (i : Nat) => inputStep _k _n node s (i : Int)) r =
      { r with input_channels := r.input_channels ++ l.map fun d : Nat =>
          (ChannelRef._chan (_EastChannel _n (neighbor_node _k node d) d),
            ChannelRef._chan_cred (_EastChannel _n (neighbor_node _k node d) d)) } := by
  induction l generalizing r with
  | nil => simp
  | cons d l ih =>
    rw [List.foldl_cons, ih]
    simp [inputStep, Router.AddInputChannel]

theorem buildNode_eq (b : Bool) (net : Network) (node : Int) :
    buildNode b net node =
      { net with
        _routers := net._routers ++ [nodeRouter net._k net._n net._size node],
        _timed_modules := net._timed_modules ++ [node],
        _chan := setNodeLatencies net._n (torusLatency b) net._chan node,
        _chan_cred := setNodeLatencies net._n (torusLatency b) net._chan_cred node,
        _inject := SetLatency net._inject node 1,
        _eject := SetLatency net._eject node 1 } := by
  unfold buildNode forLoop
  simp only []
  rw [foldl_outputStep, foldl_inputStep]
  simp [nodeRouter, torusInputs, torusOutputs, setNodeLatencies, Router.NewRouter,
    Router.AddInputChannel, Router.AddOutputChannel]

theorem foldl_buildNode (b : Bool) (l : List Nat) (net : Network) :
    l.foldl (fun s (i : Nat) => buildNode b s (i : Int)) net =
      { net with
        _routers := net._routers ++ l.map fun i : Nat => nodeRouter net._k net._n net._size i,
        _timed_modules := net._timed_modules ++ l.map fun i : Nat => (i : Int),
        _chan := l.foldl
          (fun c (i : Nat) => setNodeLatencies net._n (torusLatency b) c i) net._chan,
        _chan_cred := l.foldl
          (fun c (i : Nat) => setNodeLatencies net._n (torusLatency b) c i) net._chan_cred,
        _inject := l.foldl (fun c (i : Nat) => SetLatency c i 1) net._inject,
        _eject := l.foldl (fun c (i : Nat) => SetLatency c i 1) net._eject } := by
  induction l generalizing net with
  | nil => simp
  | cons i l ih =>
    rw [List.foldl_cons, ih, buildNode_eq]
    simp

/-- The network the constructor returns, in closed form. -/
theorem construct_eq (config : Configuration) :
    construct config = Except.ok
      { _k := config.k, _n := config.n, gK := config.k, gN := config.n,
        _size := powi config.k config.n,
        _channels := config.n * powi config.k config.n,
        _nodes := powi config.k config.n,
        _routers := (List.range (powi config.k config.n).toNat).map fun i : Nat =>
          nodeRouter config.k config.n (powi config.k config.n) i,
        _timed_modules := (List.range (powi config.k config.n).toNat).map fun i : Nat => (i : Int),
        _chan := (List.range (powi config.k config.n).toNat).foldl
          (fun c (i : Nat) =>
            setNodeLatencies config.n (torusLatency (decide (config.use_noc_latency = 1))) c i)
          (List.replicate (config.n * powi config.k config.n).toNat none),
        _chan_cred := (List.range (powi config.k config.n).toNat).foldl
          (fun c (i : Nat) =>
            setNodeLatencies config.n (torusLatency (decide (config.use_noc_latency = 1))) c i)
          (List.replicate (config.n * powi config.k config.n).toNat none),
        _inject := (List.range (powi config.k config.n).toNat).foldl
          (fun c (i : Nat) => SetLatency c i 1)
          (List.replicate (powi config.k config.n).toNat none),
        _eject := (List.range (powi config.k config.n).toNat).foldl
          (fun c (i : Nat) => SetLatency c i 1)
          (List.replicate (powi config.k config.n).toNat none) } := by
  unfold construct _BuildNet forLoop
  simp only []
  rw [foldl_buildNode]
  simp [_Alloc, _ComputeSize, Network.base]

/-! ## Latency vectors -/

theorem eastChannel_natCast (n i d : Nat) :
    _EastChannel (n : Int) (i : Int) (d : Int) = ((n * i + d : Nat) : Int) := by
  simp [_EastChannel]

theorem eastN_westN (k i d : Nat) (hk : 0 < k) : eastN k (westN k i d) d = i := by
  have := east_west_nat k i d hk
  rw [westNode_natCast k i d hk, eastNode_natCast _ _ _ hk] at this
  exact_mod_cast this

theorem westN_eastN (k i d : Nat) (hk : 0 < k) : westN k (eastN k i d) d = i := by
  have := west_east_nat k i d hk
  rw [eastNode_natCast k i d hk, westNode_natCast _ _ _ hk] at this
  exact_mod_cast this

theorem eastN_lt (k n i d : Nat) (hk : 0 < k) (hd : d < n) (hi : i < k ^ n) :
    eastN k i d < k ^ n :=
  withDigit_lt k n d i _ hd (Nat.mod_lt _ hk) hi

theorem westN_lt (k n i d : Nat) (hk : 0 < k) (hd : d < n) (hi : i < k ^ n) :
    westN k i d < k ^ n :=
  withDigit_lt k n d i _ hd (Nat.mod_lt _ hk) hi

theorem nbrN_sinkN (k i d : Nat) (hk : 0 < k) : nbrN k (sinkN k i d) d = i := by
  unfold nbrN sinkN
  split_ifs
  · exact westN_eastN k i d hk
  · exact eastN_westN k i d hk

theorem sinkN_nbrN (k i d : Nat) (hk : 0 < k) : sinkN k (nbrN k i d) d = i := by
  unfold nbrN sinkN
  split_ifs
  · exact eastN_westN k i d hk
  · exact westN_eastN k i d hk

theorem nbrN_lt (k n i d : Nat) (hk : 0 < k) (hd : d < n) (hi : i < k ^ n) :
    nbrN k i d < k ^ n := by
  unfold nbrN
  split_ifs
  · exact westN_lt k n i d hk hd hi
  · exact eastN_lt k n i d hk hd hi

theorem sinkN_lt (k n i d : Nat) (hk : 0 < k) (hd : d < n) (hi : i < k ^ n) :
    sinkN k i d < k ^ n := by
  unfold sinkN
  split_ifs
  · exact eastN_lt k n i d hk hd hi
  · exact westN_lt k n i d hk hd hi

theorem northNode_eq (k node dim : Int) : _NorthNode k node dim = _EastNode k node dim := rfl

theorem southNode_eq (k node dim : Int) : _SouthNode k node dim = _WestNode k node dim := rfl

theorem neighbor_node_natCast (k i d : Nat) (hk : 0 < k) :
    neighbor_node (k : Int) (i : Int) (d : Int) = ((nbrN k i d : Nat) : Int) := by
  unfold neighbor_node nbrN
  by_cases h : d = 0
  · rw [if_pos (by exact_mod_cast h), if_pos h, westNode_natCast k i d hk]; rfl
  · rw [if_neg (by exact_mod_cast h), if_neg h, northNode_eq, eastNode_natCast k i d hk]; rfl

theorem channel_decomp (n a d c : Nat) (hd : d < n) : n * a + d = c ↔ a = c / n ∧ d = c % n := by
  constructor
  · intro h
    subst h
    have hn : 0 < n := by omega
    constructor
    · rw [Nat.mul_add_div hn, Nat.div_eq_of_lt hd]; rfl
    · rw [Nat.mul_add_mod, Nat.mod_eq_of_lt hd]
  · rintro ⟨rfl, rfl⟩
    exact Nat.div_add_mod c n

theorem countP_unique {α : Type} [DecidableEq α] (l : List α) (hl : l.Nodup) (p : α → Bool)
    (a : α) (ha : a ∈ l) (h : ∀ x ∈ l, p x = true ↔ x = a) : l.countP p = 1 := by
  rw [← List.count_eq_one_of_mem hl ha, List.count_eq_countP]
  apply List.countP_congr
  intro x hx
  simp [h x hx]

theorem countP_flatMap_snoc {ι α : Type} (l : List ι) (A : ι → List α) (e : ι → α)
    (p : α → Bool) (he : ∀ i, p (e i) = false) :
    (l.flatMap fun i => A i ++ [e i]).countP p = (l.flatMap A).countP p := by
  induction l with
  | nil => rfl
  | cons i l ih =>
    simp only [List.flatMap_cons, List.countP_append, ih]
    simp [he i]

theorem flatMap_range_map {β : Type} (S n : Nat) (F : Nat × Nat → β) :
    ((List.range S).flatMap fun i => (List.range n).map fun d => F (i, d))
      = (List.product (List.range S) (List.range n)).map F := by
  simp only [List.product, List.map_flatMap, List.map_map]
  rfl

/-- Among the bindings `(_chan (G i d), _chan_cred (G i d))` for `i < S`, `d < n`,
each followed per `i` by a binding `e i` of another kind, exactly one has the
data channel `_chan c`, when `G` takes the value `c` at exactly one pair. -/
theorem torus_count (S n : Nat) (G : Nat → Nat → Int) (e : Nat → ChannelRef × ChannelRef)
    (t : Int) (he : ∀ i, (e i).1 ≠ ChannelRef._chan t) (i0 d0 : Nat) (hi0 : i0 < S)
    (hd0 : d0 < n) (hG : ∀ i d, i < S → d < n → (G i d = t ↔ i = i0 ∧ d = d0)) :
    ((List.range S).flatMap fun i =>
        ((List.range n).map fun d => (ChannelRef._chan (G i d), ChannelRef._chan_cred (G i d)))
          ++ [e i]).countP (fun p => p.1 = ChannelRef._chan t) = 1 := by
  rw [countP_flatMap_snoc _ _ _ _ (by intro i; simpa using he i),
    flatMap_range_map S n (fun q => (ChannelRef._chan (G q.1 q.2), ChannelRef._chan_cred (G q.1 q.2))),
    List.countP_map]
  apply countP_unique _ (List.Nodup.product (List.nodup_range S) (List.nodup_range n)) _ (i0, d0)
  · exact List.mem_product.2 ⟨List.mem_range.2 hi0, List.mem_range.2 hd0⟩
  · rintro ⟨i, d⟩ hx
    obtain ⟨hi, hd⟩ := List.mem_product.1 hx
    have := hG i d (List.mem_range.1 hi) (List.mem_range.1 hd)
    simp only [Function.comp, decide_eq_true_eq, ChannelRef._chan.injEq, Prod.mk.injEq]
    exact this

/-- On exact integers: for `k ≥ 1` and `n ≥ 1` the constructor returns a network in which
every channel identity `c` in `[0, n*k^n)` is bound by exactly one
`AddOutputChannel` call and by exactly one `AddInputChannel` call, counted over
the routers of all nodes: no torus channel is left unbound or bound twice on
either side. -/
theorem port_coverage (config : Configuration) (hk : 1 ≤ config.k) (hn : 1 ≤ config.n) :
    ∃ net, construct config = Except.ok net ∧
      ∀ c : Int, 0 ≤ c → c < config.n * config.k ^ config.n.toNat →
        (net._routers.flatMap Router.output_channels).countP
            (fun p => p.1 = ChannelRef._chan c) = 1 ∧
        (net._routers.flatMap Router.input_channels).countP
            (fun p => p.1 = ChannelRef._chan c) = 1 := by
  obtain ⟨k, n, flag⟩ := config
  simp only at hk hn ⊢
  refine ⟨_, construct_eq _, ?_⟩
  intro c hc0 hc1
  lift k to ℕ using (by omega)
  lift n to ℕ using (by omega)
  lift c to ℕ using hc0
  have hk' : 0 < k := by omega
  have hn' : 0 < n := by omega
  have hS : powi (k : Int) (n : Int) = ((k ^ n : Nat) : Int) := powi_natCast k n
  have hc : c < n * k ^ n := by
    simp only [Int.toNat_ofNat] at hc1; exact_mod_cast hc1
  have hdiv : c / n < k ^ n := by
    rw [Nat.div_lt_iff_lt_mul hn', Nat.mul_comm]; exact hc
  have hmod : c % n < n := Nat.mod_lt _ hn'
  simp only [hS, Int.toNat_ofNat, List.flatMap_map, nodeRouter, torusOutputs, torusInputs]
  constructor
  · apply torus_count (k ^ n) n (fun i d => _EastChannel (n : Int) (i : Int) (d : Int))
      (fun i => (ChannelRef._eject (i : Int), ChannelRef._eject_cred (i : Int))) (c : Int)
      (by intro i; simp) (c / n) (c % n) hdiv hmod
    intro i d _ hd
    rw [eastChannel_natCast, Nat.cast_inj]
    exact channel_decomp n i d c hd
  · apply torus_count (k ^ n) n
      (fun i d => _EastChannel (n : Int) (neighbor_node (k : Int) (i : Int) (d : Int)) (d : Int))
      (fun i => (ChannelRef._inject (i : Int), ChannelRef._inject_cred (i : Int))) (c : Int)
      (by intro i; simp) (sinkN k (c / n) (c % n)) (c % n)
      (sinkN_lt k n _ _ hk' hmod hdiv) hmod
    intro i d _ hd
    rw [neighbor_node_natCast k i d hk', eastChannel_natCast, Nat.cast_inj, channel_decomp n _ d c hd]
    constructor
    · rintro ⟨h1, h2⟩
      refine ⟨?_, h2⟩
      rw [← h1, ← h2, sinkN_nbrN k i d hk']
    · rintro ⟨h1, h2⟩
      refine ⟨?_, h2⟩
      rw [h1, h2, nbrN_sinkN k _ _ hk']

theorem port_coverage_witness :
    ((1 : Int) ≤ 3 ∧ (1 : Int) ≤ 2) ∧
    ∃ net, construct ⟨3, 2, 0⟩ = Except.ok net ∧
      ∀ c : Int, 0 ≤ c → c < 2 * 3 ^ (2 : Int).toNat →
        (net._routers.flatMap Router.output_channels).countP
            (fun p => p.1 = ChannelRef._chan c) = 1 ∧
        (net._routers.flatMap Router.input_channels).countP
            (fun p => p.1 = ChannelRef._chan c) = 1 :=
  ⟨by decide, port_coverage ⟨3, 2, 0⟩ (by decide) (by decide)⟩

theorem routers_getElem (config : Configuration) (i : Nat)
    (hi : i < (powi config.k config.n).toNat) :
    ∃ net, construct config = Except.ok net ∧
      net._routers[i]? = some (nodeRouter config.k config.n (powi config.k config.n) i) := by
  refine ⟨_, construct_eq _, ?_⟩
  simp only [List.getElem?_map, List.getElem?_range hi, Option.map_some']

theorem torusInputs_getElem (k n : Int) (node : Int) (d : Nat) (hd : d < n.toNat) :
    (nodeRouter k n (powi k n) node).input_channels[d]? =
      some (ChannelRef._chan (_EastChannel n (neighbor_node k node d) d),
        ChannelRef._chan_cred (_EastChannel n (neighbor_node k node d) d)) := by
  simp only [nodeRouter, torusInputs]
  rw [List.getElem?_append_left (by simpa using hd)]
  simp only [List.getElem?_map, List.getElem?_range hd, Option.map_some']

theorem add_one_mod_ne (k c : Nat) (hk : 1 < k) (hc : c < k) : (c + 1) % k ≠ c := by
  rcases Nat.lt_or_ge (c + 1) k with h | h
  · rw [Nat.mod_eq_of_lt h]; omega
  · rw [show c + 1 = k by omega, Nat.mod_self]; omega

theorem add_pred_mod_ne (k c : Nat) (hk : 1 < k) (hc : c < k) : (c + k - 1) % k ≠ c := by
  rcases Nat.eq_zero_or_pos c with h | h
  · subst h
    rw [show 0 + k - 1 = k - 1 by omega, Nat.mod_eq_of_lt (by omega)]; omega
  · rw [show c + k - 1 = (c - 1) + k by omega, Nat.add_mod_right, Nat.mod_eq_of_lt (by omega)]
    omega

theorem eastN_ne (k i d : Nat) (hk : 1 < k) : eastN k i d ≠ i := by
  intro h
  have hk' : 0 < k := by omega
  have hdig := withDigit_digit k (k ^ d) i ((i / k ^ d % k + 1) % k) (pow_pos hk' d)
    (Nat.mod_lt _ hk')
  unfold eastN at h
  rw [h] at hdig
  exact add_one_mod_ne k _ hk (Nat.mod_lt _ hk') hdig.symm

theorem westN_ne (k i d : Nat) (hk : 1 < k) : westN k i d ≠ i := by
  intro h
  have hk' : 0 < k := by omega
  have hdig := withDigit_digit k (k ^ d) i ((i / k ^ d % k + k - 1) % k) (pow_pos hk' d)
    (Nat.mod_lt _ hk')
  unfold westN at h
  rw [h] at hdig
  exact add_pred_mod_ne k _ hk (Nat.mod_lt _ hk') hdig.symm

theorem nbrN_ne (k i d : Nat) (hk : 1 < k) : nbrN k i d ≠ i := by
  unfold nbrN
  split_ifs
  · exact westN_ne k i d hk
  · exact eastN_ne k i d hk

theorem neighbor_node_unfold (k node dim : Int) :
    neighbor_node k node dim
      = if dim = 0 then _WestNode k node dim else _NorthNode k node dim := rfl

theorem mem_routers (config : Configuration) :
    ∃ net, construct config = Except.ok net ∧
      ∀ r ∈ net._routers, ∃ i : Nat, i < (powi config.k config.n).toNat ∧
        r = nodeRouter config.k config.n (powi config.k config.n) i := by
  refine ⟨_, construct_eq _, ?_⟩
  intro r hr
  simp only [List.mem_map, List.mem_range] at hr
  obtain ⟨i, hi, rfl⟩ := hr
  exact ⟨i, hi, rfl⟩

/-- C11. For `k > 1` and `n ≥ 1`: for every `node` in `[0, k^n)` and `dim` in
`[0, n)` the node whose outbound channel the builder binds as the input of
`(node, dim)` is not `node` itself, and in the network the constructor returns
no router has a channel `c` of `[0, n*k^n)` both among its outputs and among its
inputs: the router that binds `c` as input is another one than the router that
binds it as output. -/
theorem input_source_differs (config : Configuration) (hk : 1 < config.k) (hn : 1 ≤ config.n) :
    (∀ node dim : Int, 0 ≤ node → node < config.k ^ config.n.toNat → 0 ≤ dim → dim < config.n →
      (if dim = 0 then _WestNode config.k node dim else _NorthNode config.k node dim) ≠ node) ∧
    ∃ net, construct config = Except.ok net ∧
      ∀ c : Int, 0 ≤ c → c < config.n * config.k ^ config.n.toNat →
        ∀ r ∈ net._routers,
          ¬ ((∃ p ∈ r.output_channels, p.1 = ChannelRef._chan c) ∧
             (∃ p ∈ r.input_channels, p.1 = ChannelRef._chan c)) := by
  obtain ⟨k, n, flag⟩ := config
  simp only at hk hn ⊢
  lift k to ℕ using (by omega)
  lift n to ℕ using (by omega)
  have hk1 : 1 < k := by exact_mod_cast hk
  have hk' : 0 < k := by omega
  constructor
  · intro node dim h0 _ hd0 _
    lift node to ℕ using h0
    lift dim to ℕ using hd0
    rw [← neighbor_node_unfold, neighbor_node_natCast k node dim hk']
    intro h
    exact nbrN_ne k node dim hk1 (by exact_mod_cast h)
  · obtain ⟨net, hnet, hmem⟩ := mem_routers ⟨(k : Int), (n : Int), flag⟩
    refine ⟨net, hnet, ?_⟩
    intro c hc0 _ r hr
    lift c to ℕ using hc0
    obtain ⟨i, _, rfl⟩ := hmem r hr
    rintro ⟨⟨p, hp, hp1⟩, ⟨q, hq, hq1⟩⟩
    simp only [nodeRouter, torusOutputs, torusInputs, List.mem_append, List.mem_map,
      List.mem_range, List.mem_singleton, Int.toNat_ofNat] at hp hq
    rcases hp with ⟨d, hd, rfl⟩ | rfl
    · rcases hq with ⟨e, he, rfl⟩ | rfl
      · simp only [ChannelRef._chan.injEq] at hp1 hq1
        rw [eastChannel_natCast, Nat.cast_inj, channel_decomp n i d c hd] at hp1
        rw [neighbor_node_natCast k i e hk', eastChannel_natCast, Nat.cast_inj,
          channel_decomp n _ e c he] at hq1
        exact nbrN_ne k i e hk1 (hq1.1.trans hp1.1.symm)
      · simp at hq1
    · simp at hp1

theorem input_source_differs_witness :
    ((1 : Int) < 3 ∧ (1 : Int) ≤ 2) ∧
    (∀ node dim : Int, 0 ≤ node → node < 3 ^ (2 : Int).toNat → 0 ≤ dim → dim < 2 →
      (if dim = 0 then _WestNode 3 node dim else _NorthNode 3 node dim) ≠ node) ∧
    ∃ net, construct ⟨3, 2, 0⟩ = Except.ok net ∧
      ∀ c : Int, 0 ≤ c → c < 2 * 3 ^ (2 : Int).toNat →
        ∀ r ∈ net._routers,
          ¬ ((∃ p ∈ r.output_channels, p.1 = ChannelRef._chan c) ∧
             (∃ p ∈ r.input_channels, p.1 = ChannelRef._chan c)) :=
  ⟨by decide, input_source_differs ⟨3, 2, 0⟩ (by decide) (by decide)⟩

theorem torusOutputs_getElem (k n : Int) (node : Int) (d : Nat) (hd : d < n.toNat) :
    (nodeRouter k n (powi k n) node).output_channels[d]? =
      some (ChannelRef._chan (_EastChannel n node d), ChannelRef._chan_cred (_EastChannel n node d)) := by
  simp only [nodeRouter, torusOutputs]
  rw [List.getElem?_append_left (by simpa using hd)]
  simp only [List.getElem?_map, List.getElem?_range hd, Option.map_some']

/-- C12. For `k = 1`, every `n ≥ 1`, the only node 0 and every `dim` in `[0, n)`:
`_EastNode(0,dim) = 0 = _WestNode(0,dim)`, and the constructor returns a network
(it does not fail) whose single router has the channel `n*0 + dim` bound both as
its output and as its input for dimension `dim`. -/
theorem self_loop (n flag dim : Int) (hn : 1 ≤ n) (hd0 : 0 ≤ dim) (hd1 : dim < n) :
    (_EastNode 1 0 dim = 0 ∧ _WestNode 1 0 dim = 0) ∧
    ∃ net, construct ⟨1, n, flag⟩ = Except.ok net ∧
      ∃ r, net._routers = [r] ∧
        r.output_channels[dim.toNat]? =
          some (ChannelRef._chan (n * 0 + dim), ChannelRef._chan_cred (n * 0 + dim)) ∧
        r.input_channels[dim.toNat]? =
          some (ChannelRef._chan (n * 0 + dim), ChannelRef._chan_cred (n * 0 + dim)) := by
  lift n to ℕ using (by omega)
  lift dim to ℕ using hd0
  have hdim : dim < n := by exact_mod_cast hd1
  have hp : powi 1 (n : Int) = 1 := by simp [powi]
  have he : _EastNode 1 0 (dim : Int) = 0 := by
    have := eastNode_natCast 1 0 dim (by omega)
    simpa [withDigit] using this
  have hw : _WestNode 1 0 (dim : Int) = 0 := by
    have := westNode_natCast 1 0 dim (by omega)
    simpa [withDigit] using this
  have hnb : neighbor_node 1 0 (dim : Int) = 0 := by
    rw [neighbor_node_unfold]
    split_ifs
    · exact hw
    · exact he
  refine ⟨⟨he, hw⟩, _, construct_eq _, nodeRouter 1 (n : Int) 1 0, ?_, ?_, ?_⟩
  · simp [hp, List.range_succ]
  · have := torusOutputs_getElem 1 (n : Int) 0 dim (by simpa using hdim)
    rw [hp] at this
    rw [Int.toNat_ofNat, this]
    rfl
  · have := torusInputs_getElem 1 (n : Int) 0 dim (by simpa using hdim)
    rw [hp, hnb] at this
    rw [Int.toNat_ofNat, this]
    rfl

theorem self_loop_witness :
    ((1 : Int) ≤ 2 ∧ (0 : Int) ≤ 1 ∧ (1 : Int) < 2) ∧
    (_EastNode 1 0 1 = 0 ∧ _WestNode 1 0 1 = 0) ∧
    ∃ net, construct ⟨1, 2, 0⟩ = Except.ok net ∧
      ∃ r, net._routers = [r] ∧
        r.output_channels[(1 : Int).toNat]? =
          some (ChannelRef._chan (2 * 0 + 1), ChannelRef._chan_cred (2 * 0 + 1)) ∧
        r.input_channels[(1 : Int).toNat]? =
          some (ChannelRef._chan (2 * 0 + 1), ChannelRef._chan_cred (2 * 0 + 1)) :=
  ⟨by decide, self_loop 2 0 1 (by decide) (by decide) (by decide)⟩

/-- C13. For `k = 2`, every node `node ≥ 0` and every dimension `dim ≥ 0` (in
particular for `node` in `[0, 2^n)` and `dim` in `[0, n)`), `_EastNode(node,dim)`
and `_WestNode(node,dim)` are the same node, and it is not `node`. With `n = 1`
the neighbour of node 0 is 1 and the neighbour of node 1 is 0, in both
directions. -/
theorem two_node_ring (node dim : Int) (h0 : 0 ≤ node) (hd0 : 0 ≤ dim) :
    (_EastNode 2 node dim = _WestNode 2 node dim ∧ _EastNode 2 node dim ≠ node) ∧
    (_EastNode 2 0 0 = 1 ∧ _WestNode 2 0 0 = 1 ∧ _EastNode 2 1 0 = 0 ∧ _WestNode 2 1 0 = 0) := by
  lift node to ℕ using h0
  lift dim to ℕ using hd0
  refine ⟨⟨?_, ?_⟩, by decide⟩
  · have he := eastNode_natCast 2 node dim (by omega)
    have hw := westNode_natCast 2 node dim (by omega)
    rw [show ((2 : Nat) : Int) = 2 from rfl] at he hw
    rw [he, hw]
    have : (node / 2 ^ dim % 2 + 2 - 1) % 2 = (node / 2 ^ dim % 2 + 1) % 2 := by omega
    rw [this]
  · have he := eastNode_natCast 2 node dim (by omega)
    rw [show ((2 : Nat) : Int) = 2 from rfl] at he
    rw [he]
    intro h
    exact eastN_ne 2 node dim (by omega) (by exact_mod_cast h)

theorem two_node_ring_witness :
    ((0 : Int) ≤ 5 ∧ (0 : Int) ≤ 2) ∧
    (_EastNode 2 5 2 = _WestNode 2 5 2 ∧ _EastNode 2 5 2 ≠ 5) ∧
    (_EastNode 2 0 0 = 1 ∧ _WestNode 2 0 0 = 1 ∧ _EastNode 2 1 0 = 0 ∧ _WestNode 2 1 0 = 0) :=
  ⟨by decide, two_node_ring 5 2 (by decide) (by decide)⟩

/-- C15 (as the code has it). A `use_noc_latency` value other than 1 (such as 2
or -1) is not fatal: the builder only tests the value for equality with 1, so
the constructor returns the very network it returns for the value 0, the flag
unset. -/
theorem latency_mode_not_validated (config : Configuration) (h : config.use_noc_latency ≠ 1) :
    ∃ net, construct config = Except.ok net ∧
      construct ⟨config.k, config.n, 0⟩ = Except.ok net := by
  obtain ⟨k, n, flag⟩ := config
  simp only at h
  refine ⟨_, rfl, ?_⟩
  unfold construct _BuildNet
  simp [h, _ComputeSize]

theorem latency_mode_not_validated_witness :
    ((2 : Int) ≠ 1) ∧
    ∃ net, construct ⟨2, 1, 2⟩ = Except.ok net ∧ construct ⟨2, 1, 0⟩ = Except.ok net :=
  ⟨by decide, latency_mode_not_validated ⟨2, 1, 2⟩ (by decide)⟩

/-- C15, the claim as written fails: with `use_noc_latency = 2` and with
`use_noc_latency = -1` (and `k = 2`, `n = 1`) the constructor does not fail; it
returns a network whose torus channels have latency 1. -/
theorem latency_mode_not_validated_counterexample :
    (∃ net, construct ⟨2, 1, 2⟩ = Except.ok net ∧
      net._routers.length = 2 ∧ net._chan = [some 1, some 1] ∧
      net._chan_cred = [some 1, some 1]) ∧
    (∃ net, construct ⟨2, 1, -1⟩ = Except.ok net ∧
      net._routers.length = 2 ∧ net._chan = [some 1, some 1] ∧
      net._chan_cred = [some 1, some 1]) := by
  refine ⟨⟨_, rfl, ?_⟩, ⟨_, rfl, ?_⟩⟩ <;> decide

/-- C18. For all integers `k`, `n`, `node`, `dim`: `_NorthNode(node,dim) =
_EastNode(node,dim)`, `_SouthNode(node,dim) = _WestNode(node,dim)` and
`_SouthChannel(node,dim) = _EastChannel(node,dim)`, so the six address helpers
are three functions. The neighbour the builder takes the input of `(node, dim)`
from is `_WestNode(node,dim)` for `dim = 0` and the onward neighbour
`_EastNode(node,dim)` for every other `dim`; for `k = 3` the onward neighbour of
node 0 along dimension 1 is 3 and the reverse neighbour is 6. -/
theorem address_helpers_coincide (k n node dim : Int) :
    _NorthNode k node dim = _EastNode k node dim ∧
    _SouthNode k node dim = _WestNode k node dim ∧
    _SouthChannel n node dim = _EastChannel n node dim ∧
    neighbor_node k node dim
      = (if dim = 0 then _WestNode k node dim else _EastNode k node dim) ∧
    (_NorthNode 3 0 1 = 3 ∧ _WestNode 3 0 1 = 6) := by
  refine ⟨rfl, rfl, ?_, rfl, by decide⟩
  unfold _SouthChannel
  split_ifs <;> rfl

/-- On exact integers: for `k ≥ 1`, `n ≥ 1`, `node` in `[0, k^n)` and `dim` in `[0, n)`, the
indices the builder uses are in range: the output channel
`_EastChannel(node,dim)` lies in `[0, n*k^n)`, the neighbour (`_WestNode(node,0)`
for `dim = 0`, `_NorthNode(node,dim)` otherwise) lies in `[0, k^n)`, and the
input channel `_EastChannel(neighbour,dim)` lies in `[0, n*k^n)`. -/
theorem index_safety (k n node dim : Int) (hk : 1 ≤ k) (hn : 1 ≤ n)
    (h0 : 0 ≤ node) (h1 : node < k ^ n.toNat) (hd0 : 0 ≤ dim) (hd1 : dim < n) :
    (0 ≤ _EastChannel n node dim ∧ _EastChannel n node dim < n * k ^ n.toNat) ∧
    (0 ≤ (if dim = 0 then _WestNode k node 0 else _NorthNode k node dim) ∧
      (if dim = 0 then _WestNode k node 0 else _NorthNode k node dim) < k ^ n.toNat) ∧
    (0 ≤ _EastChannel n (if dim = 0 then _WestNode k node 0 else _NorthNode k node dim) dim ∧
      _EastChannel n (if dim = 0 then _WestNode k node 0 else _NorthNode k node dim) dim
        < n * k ^ n.toNat) := by
  lift k to ℕ using (by omega)
  lift n to ℕ using (by omega)
  lift node to ℕ using h0
  lift dim to ℕ using hd0
  have hk' : 0 < k := by omega
  have hnode : node < k ^ n := by
    simp only [Int.toNat_ofNat] at h1; exact_mod_cast h1
  have hdim : dim < n := by exact_mod_cast hd1
  have hnb : (if (dim : Int) = 0 then _WestNode (k : Int) (node : Int) 0
      else _NorthNode (k : Int) (node : Int) (dim : Int)) = ((nbrN k node dim : Nat) : Int) := by
    rw [← neighbor_node_natCast k node dim hk', neighbor_node_unfold]
    by_cases h : (dim : Int) = 0
    · rw [if_pos h, if_pos h, h]
    · rw [if_neg h, if_neg h]
  have hlt := nbrN_lt k n node dim hk' hdim hnode
  have hch : ∀ i : Nat, i < k ^ n → n * i + dim < n * k ^ n := by
    intro i hi
    have := Nat.mul_le_mul_left n (Nat.succ_le_of_lt hi)
    rw [Nat.mul_succ] at this
    omega
  rw [hnb, eastChannel_natCast, eastChannel_natCast]
  simp only [Int.toNat_ofNat]
  refine ⟨⟨Int.natCast_nonneg _, ?_⟩, ⟨Int.natCast_nonneg _, ?_⟩, ⟨Int.natCast_nonneg _, ?_⟩⟩
  · exact_mod_cast hch node hnode
  · exact_mod_cast hlt
  · exact_mod_cast hch _ hlt

theorem index_safety_witness :
    ((1 : Int) ≤ 3 ∧ (1 : Int) ≤ 2 ∧ (0 : Int) ≤ 8 ∧ (8 : Int) < 3 ^ (2 : Int).toNat ∧
      (0 : Int) ≤ 1 ∧ (1 : Int) < 2) ∧
    (0 ≤ _EastChannel 2 8 1 ∧ _EastChannel 2 8 1 < 2 * 3 ^ (2 : Int).toNat) ∧
    (0 ≤ (if (1 : Int) = 0 then _WestNode 3 8 0 else _NorthNode 3 8 1) ∧
      (if (1 : Int) = 0 then _WestNode 3 8 0 else _NorthNode 3 8 1) < 3 ^ (2 : Int).toNat) ∧
    (0 ≤ _EastChannel 2 (if (1 : Int) = 0 then _WestNode 3 8 0 else _NorthNode 3 8 1) 1 ∧
      _EastChannel 2 (if (1 : Int) = 0 then _WestNode 3 8 0 else _NorthNode 3 8 1) 1
        < 2 * 3 ^ (2 : Int).toNat) :=
  ⟨by decide, index_safety 3 2 8 1 (by decide) (by decide) (by decide) (by decide)
    (by decide) (by decide)⟩

theorem registerRoutingFunctions_twice (m : RoutingFunctionMap) :
    RegisterRoutingFunctions (RegisterRoutingFunctions m) = RegisterRoutingFunctions m := by
  unfold RegisterRoutingFunctions RoutingFunctionMap.assign
  congr 1
  funext s
  by_cases h : s = "dor_unidirectional_torus" <;> simp [h]

/-- C16. After one call of `RegisterRoutingFunctions` the name
"dor_unidirectional_torus" is looked up in `gRoutingFunctionMap` as the
dimension-order routing function (a non-empty handle), every other entry of the
registry is as before the call, and the registry after two calls, or any
number `j ≥ 1` of calls, is the registry after one call. -/
theorem registerRoutingFunctions_idempotent (m : RoutingFunctionMap) :
    (RegisterRoutingFunctions m).find ("dor_unidirectional_torus")
      = some tRoutingFunction.dim_order_unidirectional_torus ∧
    ((RegisterRoutingFunctions m).find ("dor_unidirectional_torus")).isSome = true ∧
    (∀ s : String, s ≠ "dor_unidirectional_torus" →
      (RegisterRoutingFunctions m).find s = m.find s) ∧
    RegisterRoutingFunctions (RegisterRoutingFunctions m) = RegisterRoutingFunctions m ∧
    (∀ j : Nat, 1 ≤ j → RegisterRoutingFunctions^[j] m = RegisterRoutingFunctions m) := by
  refine ⟨?_, ?_, ?_, registerRoutingFunctions_twice m, ?_⟩
  · simp [RegisterRoutingFunctions, RoutingFunctionMap.assign]
  · simp [RegisterRoutingFunctions, RoutingFunctionMap.assign]
  · intro s hs
    simp [RegisterRoutingFunctions, RoutingFunctionMap.assign, hs]
  · intro j hj
    induction j with
    | zero => omega
    | succ j ih =>
      rcases Nat.eq_zero_or_pos j with h0 | hpos
      · subst h0; rfl
      · rw [Function.iterate_succ_apply', ih hpos, registerRoutingFunctions_twice]

theorem registerRoutingFunctions_idempotent_witness :
    ("dor_mesh" ≠ "dor_unidirectional_torus") ∧
    (RegisterRoutingFunctions ⟨fun _ => none⟩).find ("dor_mesh") = none :=
  ⟨by decide,
    (registerRoutingFunctions_idempotent ⟨fun _ => none⟩).2.2.1 ("dor_mesh") (by decide)⟩

/-! ## Router names -/

theorem digitChar_value (m : Nat) (h : m < 10) : (Nat.digitChar m).toNat - 48 = m := by
  interval_cases m <;> rfl

theorem digitChar_ne_underscore (m : Nat) (h : m < 10) : Nat.digitChar m ≠ '_' := by
  interval_cases m <;> decide

theorem foldl_toDigitsCore (fuel n : Nat) (ds : List Char) (h : n < fuel) :
    (Nat.toDigitsCore 10 fuel n ds).foldl (fun acc ch => 10 * acc + (ch.toNat - 48)) 0
      = ds.foldl (fun acc ch => 10 * acc + (ch.toNat - 48)) n := by
  induction fuel generalizing n ds with
  | zero => omega
  | succ fuel ih =>
    unfold Nat.toDigitsCore
    simp only []
    by_cases h0 : n / 10 = 0
    · rw [if_pos h0, List.foldl_cons, digitChar_value _ (Nat.mod_lt _ (by omega))]
      have : 10 * 0 + n % 10 = n := by omega
      rw [this]
    · rw [if_neg h0, ih (n / 10) _ (by omega), List.foldl_cons,
        digitChar_value _ (Nat.mod_lt _ (by omega))]
      have : 10 * (n / 10) + n % 10 = n := by omega
      rw [this]

theorem digitsValue_toDigits (n : Nat) : digitsValue (Nat.toDigits 10 n) = n := by
  unfold digitsValue Nat.toDigits
  rw [foldl_toDigitsCore _ _ _ (Nat.lt_succ_self n)]
  rfl

theorem toDigits_injective (a b : Nat) (h : Nat.toDigits 10 a = Nat.toDigits 10 b) : a = b := by
  rw [← digitsValue_toDigits a, ← digitsValue_toDigits b, h]

theorem toDigitsCore_no_underscore (fuel n : Nat) (ds : List Char)
    (h : ∀ ch ∈ ds, ch ≠ '_') : ∀ ch ∈ Nat.toDigitsCore 10 fuel n ds, ch ≠ '_' := by
  induction fuel generalizing n ds with
  | zero => simpa [Nat.toDigitsCore] using h
  | succ fuel ih =>
    have hcons : ∀ ch ∈ Nat.digitChar (n % 10) :: ds, ch ≠ '_' := by
      intro ch hch
      rcases List.mem_cons.1 hch with rfl | hmem
      · exact digitChar_ne_underscore _ (Nat.mod_lt _ (by omega))
      · exact h ch hmem
    unfold Nat.toDigitsCore
    simp only []
    by_cases h0 : n / 10 = 0
    · rw [if_pos h0]; exact hcons
    · rw [if_neg h0]; exact ih _ _ hcons

theorem toDigits_no_underscore (n : Nat) : ∀ ch ∈ Nat.toDigits 10 n, ch ≠ '_' :=
  toDigitsCore_no_underscore _ _ [] (by simp)

/-- Two texts without underscore, each followed by nothing or by a text that
starts with an underscore, are equal when the wholes are. -/
theorem sep_cancel (x y r1 r2 : List Char) (hx : ∀ ch ∈ x, ch ≠ '_') (hy : ∀ ch ∈ y, ch ≠ '_')
    (h1 : r1 = [] ∨ ∃ t, r1 = '_' :: t) (h2 : r2 = [] ∨ ∃ t, r2 = '_' :: t)
    (h : x ++ r1 = y ++ r2) : x = y ∧ r1 = r2 := by
  induction x generalizing y with
  | nil =>
    cases y with
    | nil => exact ⟨rfl, by simpa using h⟩
    | cons b y =>
      exfalso
      rcases h1 with rfl | ⟨t, rfl⟩
      · simp at h
      · simp only [List.nil_append, List.cons_append, List.cons.injEq] at h
        exact hy b (List.mem_cons_self _ _) h.1.symm
  | cons a x ih =>
    cases y with
    | nil =>
      exfalso
      rcases h2 with rfl | ⟨t, rfl⟩
      · simp at h
      · simp only [List.nil_append, List.cons_append, List.cons.injEq] at h
        exact hx a (List.mem_cons_self _ _) h.1
    | cons b y =>
      simp only [List.cons_append, List.cons.injEq] at h
      obtain ⟨hxy, hr⟩ := ih y (fun ch hch => hx ch (List.mem_cons_of_mem _ hch))
        (fun ch hch => hy ch (List.mem_cons_of_mem _ hch)) h.2
      exact ⟨by rw [h.1, hxy], hr⟩

theorem pieceChars_head (k node j : Nat) :
    pieceChars k node j = [] ∨ ∃ t, pieceChars k node j = '_' :: t := by
  cases j with
  | zero => exact Or.inl rfl
  | succ j => exact Or.inr ⟨_, rfl⟩

theorem pieceChars_injective (k a b : Nat) (j : Nat) (h : pieceChars k a j = pieceChars k b j) :
    ∀ d < j, a / k ^ d % k = b / k ^ d % k := by
  induction j with
  | zero => intro d hd; omega
  | succ j ih =>
    simp only [pieceChars, List.cons.injEq, true_and] at h
    obtain ⟨hd, hr⟩ := sep_cancel _ _ _ _ (toDigits_no_underscore _) (toDigits_no_underscore _)
      (pieceChars_head k a j) (pieceChars_head k b j) h
    intro d hdj
    rcases Nat.lt_succ_iff_lt_or_eq.1 hdj with hlt | rfl
    · exact ih hr d hlt
    · exact toDigits_injective _ _ hd

theorem coords_injective (k : Nat) (n a b : Nat) (ha : a < k ^ n) (hb : b < k ^ n)
    (h : ∀ d < n, a / k ^ d % k = b / k ^ d % k) : a = b := by
  induction n generalizing a b with
  | zero => simp at ha hb; omega
  | succ n ih =>
    rcases Nat.eq_zero_or_pos k with hk | hk
    · subst hk; simp at ha
    have h0 := h 0 (Nat.succ_pos n)
    simp only [pow_zero, Nat.div_one] at h0
    have hdiv : a / k = b / k := by
      apply ih
      · rw [Nat.div_lt_iff_lt_mul hk, ← pow_succ]; exact ha
      · rw [Nat.div_lt_iff_lt_mul hk, ← pow_succ]; exact hb
      · intro d hd
        have := h (d + 1) (Nat.succ_lt_succ hd)
        rw [pow_succ, Nat.mul_comm, ← Nat.div_div_eq_div_mul, ← Nat.div_div_eq_div_mul] at this
        exact this
    rw [← Nat.div_add_mod a k, ← Nat.div_add_mod b k, hdiv, h0]

theorem coordinatePieces_data (k node : Nat) (j : Nat) :
    (coordinatePieces (k : Int) (node : Int) j).data = pieceChars k node j := by
  induction j with
  | zero => rfl
  | succ j ih =>
    have hc : ((node : Int) / (k : Int) ^ j) % (k : Int) = ((node / k ^ j % k : Nat) : Int) := by
      push_cast; rfl
    simp only [coordinatePieces, pieceChars, String.data_append, ih, hc]
    rfl

theorem routerNameLoop_zero (k node : Int) (fuel : Nat) (name : String) :
    routerNameLoop k node fuel 0 name = name ∧ routerNameLoopSteps k fuel 0 = 0 := by
  cases fuel with
  | zero => exact ⟨rfl, rfl⟩
  | succ f => simp [routerNameLoop, routerNameLoopSteps]

theorem routerNameLoop_pow (k node : Nat) (hk : 1 < k) (j fuel : Nat) (name : String)
    (hf : j + 1 ≤ fuel) :
    routerNameLoop (k : Int) (node : Int) fuel ((k : Int) ^ j) name
        = name ++ coordinatePieces (k : Int) (node : Int) (j + 1) ∧
      routerNameLoopSteps (k : Int) fuel ((k : Int) ^ j) = j + 1 := by
  induction j generalizing fuel name with
  | zero =>
    obtain ⟨f, rfl⟩ : ∃ f, fuel = f + 1 := ⟨fuel - 1, by omega⟩
    have h1 : Int.tdiv 1 (k : Int) = 0 := by
      rw [Int.tdiv_eq_ediv (by omega) (by omega)]
      exact Int.ediv_eq_zero_of_lt (by omega) (by exact_mod_cast hk)
    have hc : (Int.tdiv (node : Int) 1).tmod (k : Int) = (node : Int) / (k : Int) ^ 0 % (k : Int) := by
      rw [Int.tdiv_eq_ediv (by omega) (by omega), Int.tmod_eq_emod (by positivity) (by omega)]
      simp
    constructor
    · rw [routerNameLoop]
      simp only [pow_zero, ge_iff_le, le_refl, if_true, h1, (routerNameLoop_zero _ _ _ _).1,
        coordinatePieces]
      rw [hc]
      simp [String.append_assoc]
    · rw [routerNameLoopSteps]
      simp only [pow_zero, ge_iff_le, le_refl, if_true, h1]
      rw [(routerNameLoop_zero (k : Int) 0 f name).2]
  | succ j ih =>
    obtain ⟨f, rfl⟩ : ∃ f, fuel = f + 1 := ⟨fuel - 1, by omega⟩
    have hpos : (1 : Int) ≤ (k : Int) ^ (j + 1) := by
      have : 0 < k ^ (j + 1) := pow_pos (by omega) _
      exact_mod_cast this
    have h1 : Int.tdiv ((k : Int) ^ (j + 1)) (k : Int) = (k : Int) ^ j := by
      rw [Int.tdiv_eq_ediv (by omega) (by omega), pow_succ]
      exact Int.mul_ediv_cancel _ (by omega)
    have hc : (Int.tdiv (node : Int) ((k : Int) ^ (j + 1))).tmod (k : Int)
        = (node : Int) / (k : Int) ^ (j + 1) % (k : Int) := by
      rw [Int.tdiv_eq_ediv (by omega) (by omega), Int.tmod_eq_emod (by positivity) (by omega)]
    obtain ⟨ih1, ih2⟩ := ih f
      (name ++ "_" ++ toString ((node : Int) / (k : Int) ^ (j + 1) % (k : Int))) (by omega)
    rw [routerNameLoop, routerNameLoopSteps]
    simp only [ge_iff_le, hpos, if_true, h1, hc, ih1, ih2]
    constructor
    · simp only [coordinatePieces, String.append_assoc]
    · trivial

theorem div_self_pow (k n : Nat) (hk : 0 < k) (hn : 1 ≤ n) :
    Int.tdiv (powi (k : Int) (n : Int)) (k : Int) = (k : Int) ^ (n - 1) := by
  obtain ⟨m, rfl⟩ : ∃ m, n = m + 1 := ⟨n - 1, by omega⟩
  have hp : ((k ^ (m + 1) : Nat) : Int) = (k : Int) ^ m * (k : Int) := by
    push_cast; ring
  rw [powi_natCast, Int.tdiv_eq_ediv (by positivity) (by omega), hp, Nat.add_sub_cancel]
  exact Int.mul_ediv_cancel _ (by omega)

theorem le_pow_pred (k n : Nat) (hk : 1 < k) (hn : 1 ≤ n) : n ≤ k ^ (n - 1) := by
  have h1 : n - 1 < 2 ^ (n - 1) := Nat.lt_two_pow _
  have h2 : 2 ^ (n - 1) ≤ k ^ (n - 1) := Nat.pow_le_pow_left (by omega) _
  omega

theorem routerName_eq (k n node : Nat) (hk : 1 < k) (hn : 1 ≤ n) :
    routerName (k : Int) (powi (k : Int) (n : Int)) (node : Int)
      = "router" ++ coordinatePieces (k : Int) (node : Int) n := by
  unfold routerName
  have hk1 : (k : Int) > 1 := by exact_mod_cast hk
  simp only [hk1, if_true]
  rw [div_self_pow k n (by omega) hn]
  have hfuel : (n - 1) + 1 ≤ ((k : Int) ^ (n - 1)).toNat := by
    have := le_pow_pred k n hk hn
    have hc : ((k : Int) ^ (n - 1)).toNat = k ^ (n - 1) := by
      rw [← Nat.cast_pow, Int.toNat_ofNat]
    omega
  rw [(routerNameLoop_pow k node hk (n - 1) _ _ hfuel).1, Nat.sub_add_cancel hn]

theorem routerName_injective (k n a b : Nat) (hk : 1 < k) (hn : 1 ≤ n)
    (ha : a < k ^ n) (hb : b < k ^ n)
    (h : routerName (k : Int) (powi (k : Int) (n : Int)) (a : Int)
      = routerName (k : Int) (powi (k : Int) (n : Int)) (b : Int)) : a = b := by
  rw [routerName_eq k n a hk hn, routerName_eq k n b hk hn] at h
  have hdata := congrArg String.data h
  rw [String.data_append, String.data_append, coordinatePieces_data, coordinatePieces_data]
    at hdata
  exact coords_injective k n a b ha hb
    (pieceChars_injective k a b n (List.append_cancel_left hdata))

/-- C17. For `k > 1`, `n ≥ 1` and `node` in `[0, k^n)`: entered with
`dim_offset = _size / _k`, the naming loop of `_BuildNet` runs its body exactly
`n` times and then stops on its own condition (whatever bound `≥ n` is put on the
iterations, and the bound `_size / _k` the embedding uses is such a bound), and
it leaves the name "router" followed by `_c` for `d = n-1` down to `0`, where `c`
is the decimal coordinate `(node / k^d) mod k`; this is the name of the router
the constructor leaves at index `node`, and two nodes of `[0, k^n)` with the same
name are the same node. For `k = 1` the name is exactly "router". With `k = 4`,
`n = 2` node 7 is named "router_1_3". -/
theorem router_naming (config : Configuration) (node : Int)
    (hk : 1 < config.k) (hn : 1 ≤ config.n)
    (h0 : 0 ≤ node) (h1 : node < config.k ^ config.n.toNat) :
    (∀ fuel : Nat, config.n.toNat ≤ fuel →
      routerNameLoopSteps config.k fuel ((powi config.k config.n).tdiv config.k)
          = config.n.toNat ∧
        routerNameLoop config.k node fuel ((powi config.k config.n).tdiv config.k) ("router")
          = "router" ++ coordinatePieces config.k node config.n.toNat) ∧
    config.n.toNat ≤ ((powi config.k config.n).tdiv config.k).toNat ∧
    routerName config.k (powi config.k config.n) node
      = "router" ++ coordinatePieces config.k node config.n.toNat ∧
    (∃ net, construct config = Except.ok net ∧
      ∃ r, net._routers[node.toNat]? = some r ∧
        r.name = "router" ++ coordinatePieces config.k node config.n.toNat) ∧
    (∀ node' : Int, 0 ≤ node' → node' < config.k ^ config.n.toNat →
      routerName config.k (powi config.k config.n) node'
        = routerName config.k (powi config.k config.n) node → node' = node) ∧
    (∀ size node' : Int, routerName 1 size node' = "router") ∧
    routerName 4 (powi 4 2) 7 = "router_1_3" := by
  obtain ⟨k, n, flag⟩ := config
  simp only at hk hn h1 ⊢
  lift k to ℕ using (by omega)
  lift n to ℕ using (by omega)
  lift node to ℕ using h0
  have hk1 : 1 < k := by exact_mod_cast hk
  have hn1 : 1 ≤ n := by exact_mod_cast hn
  have hS : powi (k : Int) (n : Int) = ((k ^ n : Nat) : Int) := powi_natCast k n
  have hnode : node < k ^ n := by
    simp only [Int.toNat_ofNat] at h1; exact_mod_cast h1
  have hdiv := div_self_pow k n (by omega) hn1
  simp only [Int.toNat_ofNat]
  refine ⟨?_, ?_, routerName_eq k n node hk1 hn1, ?_, ?_, fun _ _ => rfl, by decide⟩
  · intro fuel hf
    rw [hdiv]
    obtain ⟨l1, l2⟩ := routerNameLoop_pow k node hk1 (n - 1) fuel ("router") (by omega)
    rw [Nat.sub_add_cancel hn1] at l1 l2
    exact ⟨l2, l1⟩
  · rw [hdiv, ← Nat.cast_pow, Int.toNat_ofNat]
    exact le_pow_pred k n hk1 hn1
  · obtain ⟨net, hnet, hr⟩ := routers_getElem ⟨(k : Int), (n : Int), flag⟩ node
      (by simp only [hS, Int.toNat_ofNat]; exact hnode)
    exact ⟨net, hnet, _, hr, routerName_eq k n node hk1 hn1⟩
  · intro node' h0' h1' heq
    lift node' to ℕ using h0'
    have hnode' : node' < k ^ n := by exact_mod_cast h1'
    have := routerName_injective k n node' node hk1 hn1 hnode' hnode heq
    exact_mod_cast this

theorem router_naming_witness :
    ((1 : Int) < 4 ∧ (1 : Int) ≤ 2 ∧ (0 : Int) ≤ 7 ∧ (7 : Int) < 4 ^ (2 : Int).toNat) ∧
    (∀ fuel : Nat, (2 : Int).toNat ≤ fuel →
      routerNameLoopSteps 4 fuel ((powi 4 2).tdiv 4) = (2 : Int).toNat ∧
        routerNameLoop 4 7 fuel ((powi 4 2).tdiv 4) ("router")
          = "router" ++ coordinatePieces 4 7 (2 : Int).toNat) ∧
    (2 : Int).toNat ≤ ((powi 4 2).tdiv 4).toNat ∧
    routerName 4 (powi 4 2) 7 = "router" ++ coordinatePieces 4 7 (2 : Int).toNat ∧
    (∃ net, construct ⟨4, 2, 0⟩ = Except.ok net ∧
      ∃ r, net._routers[(7 : Int).toNat]? = some r ∧
        r.name = "router" ++ coordinatePieces 4 7 (2 : Int).toNat) ∧
    (∀ node' : Int, 0 ≤ node' → node' < 4 ^ (2 : Int).toNat →
      routerName 4 (powi 4 2) node' = routerName 4 (powi 4 2) 7 → node' = 7) ∧
    (∀ size node' : Int, routerName 1 size node' = "router") ∧
    routerName 4 (powi 4 2) 7 = "router_1_3" :=
  ⟨by decide, router_naming ⟨4, 2, 0⟩ 7 (by decide) (by decide) (by decide) (by decide)⟩

/-! ## The builder under `int` arithmetic, in closed form -/

theorem wrap32_of_fits (x : Int) (h1 : -2147483648 ≤ x) (h2 : x ≤ 2147483647) : wrap32 x = x := by
  unfold wrap32; omega

theorem outputStep32_eq (b : Bool) (node : Int) (st : Router × Network) (dim : Int) :
    outputStep32 b node st dim =
      (st.1.AddOutputChannel (ChannelRef._chan (_EastChannel32 st.2._n node dim))
          (ChannelRef._chan_cred (_EastChannel32 st.2._n node dim)),
        { st.2 with
          _chan := SetLatency st.2._chan (_EastChannel32 st.2._n node dim) (torusLatency b),
          _chan_cred :=
            SetLatency st.2._chan_cred (_EastChannel32 st.2._n node dim) (torusLatency b) }) := by
  cases b <;> rfl

theorem foldl_outputStep32 (b : Bool) (node : Int) (l : List Nat) (r : Router) (net : Network) :
    l.foldl (fun s (i : Nat) => outputStep32 b node s (i : Int)) (r, net) =
      ({ r with output_channels := r.output_channels ++ l.map fun d : Nat =>
            (ChannelRef._chan (_EastChannel32 net._n node d),
              ChannelRef._chan_cred (_EastChannel32 net._n node d)) },
        { net with
          _chan := l.foldl
            (fun v (d : Nat) => SetLatency v (_EastChannel32 net._n node d) (torusLatency b))
            net._chan,
          _chan_cred := l.foldl
            (fun v (d : Nat) => SetLatency v (_EastChannel32 net._n node d) (torusLatency b))
            net._chan_cred }) := by
  induction l generalizing r net with
  | nil => simp
  | cons d l ih =>
    rw [List.foldl_cons, outputStep32_eq, ih]
    simp [Router.AddOutputChannel]

theorem foldl_inputStep32 (_k _n node : Int) (l : List Nat) (r : Router) :
    l.foldl (fun s (i : Nat) => inputStep32 _k _n node s (i : Int)) r =
      { r with input_channels := r.input_channels ++ l.map fun d : Nat =>
          (ChannelRef._chan (_EastChannel32 _n (neighbor_node _k node d) d),
            ChannelRef._chan_cred (_EastChannel32 _n (neighbor_node _k node d) d)) } := by
  induction l generalizing r with
  | nil => simp
  | cons d l ih =>
    rw [List.foldl_cons, ih]
    simp [inputStep32, Router.AddInputChannel]

theorem buildNode32_eq (b : Bool) (net : Network) (node : Int) :
    buildNode32 b net node =
      { net with
        _routers := net._routers ++ [nodeRouter32 net._k net._n net._size node],
        _timed_modules := net._timed_modules ++ [node],
        _chan := setNodeLatencies32 net._n (torusLatency b) net._chan node,
        _chan_cred := setNodeLatencies32 net._n (torusLatency b) net._chan_cred node,
        _inject := SetLatency net._inject node 1,
        _eject := SetLatency net._eject node 1 } := by
  unfold buildNode32 forLoop
  simp only []
  rw [foldl_outputStep32, foldl_inputStep32]
  simp [nodeRouter32, torusInputs32, torusOutputs32, setNodeLatencies32, Router.NewRouter,
    Router.AddInputChannel, Router.AddOutputChannel]

theorem foldl_buildNode32 (b : Bool) (l : List Nat) (net : Network) :
    l.foldl (fun s (i : Nat) => buildNode32 b s (i : Int)) net =
      { net with
        _routers := net._routers ++ l.map fun i : Nat => nodeRouter32 net._k net._n net._size i,
        _timed_modules := net._timed_modules ++ l.map fun i : Nat => (i : Int),
        _chan := l.foldl
          (fun v (i : Nat) => setNodeLatencies32 net._n (torusLatency b) v i) net._chan,
        _chan_cred := l.foldl
          (fun v (i : Nat) => setNodeLatencies32 net._n (torusLatency b) v i) net._chan_cred,
        _inject := l.foldl (fun v (i : Nat) => SetLatency v i 1) net._inject,
        _eject := l.foldl (fun v (i : Nat) => SetLatency v i 1) net._eject } := by
  induction l generalizing net with
  | nil => simp
  | cons i l ih =>
    rw [List.foldl_cons, ih, buildNode32_eq]
    simp

/-- The network `construct32` returns, in closed form. -/
theorem construct32_eq (config : Configuration) :
    construct32 config = Except.ok
      { _k := config.k, _n := config.n, gK := config.k, gN := config.n,
        _size := powi config.k config.n,
        _channels := wrap32 (config.n * powi config.k config.n),
        _nodes := powi config.k config.n,
        _routers := (List.range (powi config.k config.n).toNat).map fun i : Nat =>
          nodeRouter32 config.k config.n (powi config.k config.n) i,
        _timed_modules := (List.range (powi config.k config.n).toNat).map fun i : Nat => (i : Int),
        _chan := (List.range (powi config.k config.n).toNat).foldl
          (fun v (i : Nat) =>
            setNodeLatencies32 config.n (torusLatency (decide (config.use_noc_latency = 1))) v i)
          (List.replicate (wrap32 (config.n * powi config.k config.n)).toNat none),
        _chan_cred := (List.range (powi config.k config.n).toNat).foldl
          (fun v (i : Nat) =>
            setNodeLatencies32 config.n (torusLatency (decide (config.use_noc_latency = 1))) v i)
          (List.replicate (wrap32 (config.n * powi config.k config.n)).toNat none),
        _inject := (List.range (powi config.k config.n).toNat).foldl
          (fun v (i : Nat) => SetLatency v i 1)
          (List.replicate (powi config.k config.n).toNat none),
        _eject := (List.range (powi config.k config.n).toNat).foldl
          (fun v (i : Nat) => SetLatency v i 1)
          (List.replicate (powi config.k config.n).toNat none) } := by
  unfold construct32 _BuildNet32 forLoop
  simp only []
  rw [foldl_buildNode32]
  simp [_Alloc, _ComputeSize32, Network.base]

/-- Within the bound `n*k^n ≤ 2^31 - 1` the channel number of a pair of the
domain is the same in `int` as on exact integers. -/
theorem eastChannel32_natCast (k n i d : Nat) (hfit : n * k ^ n ≤ 2147483647)
    (hi : i < k ^ n) (hd : d < n) :
    _EastChannel32 (n : Int) (i : Int) (d : Int) = ((n * i + d : Nat) : Int) := by
  have h1 : n * i + n ≤ n * k ^ n := by
    have := Nat.mul_le_mul_left n (Nat.succ_le_of_lt hi)
    rwa [Nat.mul_succ] at this
  have h2 : (n : Int) * (i : Int) = ((n * i : Nat) : Int) := by push_cast; rfl
  unfold _EastChannel32
  simp only []
  rw [h2, wrap32_of_fits ((n * i : Nat) : Int) (by omega) (by omega),
    wrap32_of_fits _ (by omega) (by omega)]
  push_cast; rfl

/-! ## Agreement of the two readings within the bound -/

theorem nodeRouter32_eq (k n i : Nat) (size : Int) (hk : 0 < k)
    (hfit : n * k ^ n ≤ 2147483647) (hi : i < k ^ n) :
    nodeRouter32 (k : Int) (n : Int) size (i : Int) = nodeRouter (k : Int) (n : Int) size (i : Int) := by
  have hout : torusOutputs32 (n : Int) (i : Int) = torusOutputs (n : Int) (i : Int) := by
    unfold torusOutputs32 torusOutputs
    apply List.map_congr_left
    intro d hd
    rw [Int.toNat_ofNat, List.mem_range] at hd
    rw [eastChannel32_natCast k n i d hfit hi hd, eastChannel_natCast]
  have hin : torusInputs32 (k : Int) (n : Int) (i : Int) = torusInputs (k : Int) (n : Int) (i : Int) := by
    unfold torusInputs32 torusInputs
    apply List.map_congr_left
    intro d hd
    rw [Int.toNat_ofNat, List.mem_range] at hd
    rw [neighbor_node_natCast k i d hk,
      eastChannel32_natCast k n _ d hfit (nbrN_lt k n i d hk hd hi) hd, eastChannel_natCast]
  unfold nodeRouter32 nodeRouter
  rw [hout, hin]

theorem setNodeLatencies32_eq (k n i : Nat) (lat : Int) (v : List (Option Int))
    (hfit : n * k ^ n ≤ 2147483647) (hi : i < k ^ n) :
    setNodeLatencies32 (n : Int) lat v (i : Int) = setNodeLatencies (n : Int) lat v (i : Int) := by
  unfold setNodeLatencies32 setNodeLatencies
  apply List.foldl_ext
  intro w d hd
  rw [Int.toNat_ofNat, List.mem_range] at hd
  rw [eastChannel32_natCast k n i d hfit hi hd, eastChannel_natCast]

/-- Within the bound `n*k^n ≤ 2^31 - 1` the `int` arithmetic of the source never
wraps: the constructor with `int` arithmetic returns the network the
constructor on exact integers returns. -/
theorem construct32_eq_construct (config : Configuration) (hk : 1 ≤ config.k)
    (hn : 1 ≤ config.n) (hfit : config.n * config.k ^ config.n.toNat ≤ 2147483647) :
    construct32 config = construct config := by
  obtain ⟨k, n, flag⟩ := config
  simp only at hk hn hfit
  lift k to ℕ using (by omega)
  lift n to ℕ using (by omega)
  have hk' : 0 < k := by omega
  have hS : powi (k : Int) (n : Int) = ((k ^ n : Nat) : Int) := powi_natCast k n
  have hfit' : n * k ^ n ≤ 2147483647 := by
    simp only [Int.toNat_ofNat] at hfit; exact_mod_cast hfit
  have hw : wrap32 ((n : Int) * ((k ^ n : Nat) : Int)) = (n : Int) * ((k ^ n : Nat) : Int) := by
    apply wrap32_of_fits
    · have : (0 : Int) ≤ (n : Int) * ((k ^ n : Nat) : Int) := by positivity
      omega
    · exact_mod_cast hfit'
  have hr : ((List.range (k ^ n)).map fun i : Nat =>
        nodeRouter32 (k : Int) (n : Int) ((k ^ n : Nat) : Int) (i : Int))
      = (List.range (k ^ n)).map fun i : Nat =>
        nodeRouter (k : Int) (n : Int) ((k ^ n : Nat) : Int) (i : Int) := by
    apply List.map_congr_left
    intro i hi
    exact nodeRouter32_eq k n i _ hk' hfit' (List.mem_range.1 hi)
  have hl : ∀ (lat : Int) (v : List (Option Int)),
      (List.range (k ^ n)).foldl (fun w (i : Nat) => setNodeLatencies32 (n : Int) lat w (i : Int)) v
      = (List.range (k ^ n)).foldl (fun w (i : Nat) => setNodeLatencies (n : Int) lat w (i : Int)) v := by
    intro lat v
    apply List.foldl_ext
    intro w i hi
    exact setNodeLatencies32_eq k n i lat w hfit' (List.mem_range.1 hi)
  rw [construct32_eq, construct_eq]
  simp only [hS, Int.toNat_ofNat, hw, hr, hl]

/-! ## Sizes, channel numbers and port coverage under `int` arithmetic -/

theorem eastChannel32_eq (k n node dim : Int) (hk : 1 ≤ k) (hn : 1 ≤ n)
    (hfit : n * k ^ n.toNat ≤ 2147483647)
    (h0 : 0 ≤ node) (h1 : node < k ^ n.toNat) (hd0 : 0 ≤ dim) (hd1 : dim < n) :
    _EastChannel32 n node dim = _EastChannel n node dim := by
  lift k to ℕ using (by omega)
  lift n to ℕ using (by omega)
  lift node to ℕ using h0
  lift dim to ℕ using hd0
  simp only [Int.toNat_ofNat] at hfit h1
  rw [eastChannel32_natCast k n node dim (by exact_mod_cast hfit) (by exact_mod_cast h1)
    (by exact_mod_cast hd1), eastChannel_natCast]

theorem torusOutputs32_getElem (k n : Int) (node : Int) (d : Nat) (hd : d < n.toNat) :
    (nodeRouter32 k n (powi k n) node).output_channels[d]? =
      some (ChannelRef._chan (_EastChannel32 n node d),
        ChannelRef._chan_cred (_EastChannel32 n node d)) := by
  simp only [nodeRouter32, torusOutputs32]
  rw [List.getElem?_append_left (by simpa using hd)]
  simp only [List.getElem?_map, List.getElem?_range hd, Option.map_some']

theorem routers32_getElem (config : Configuration) (i : Nat)
    (hi : i < (powi config.k config.n).toNat) :
    ∃ net, construct32 config = Except.ok net ∧
      net._routers[i]? = some (nodeRouter32 config.k config.n (powi config.k config.n) i) := by
  refine ⟨_, construct32_eq _, ?_⟩
  simp only [List.getElem?_map, List.getElem?_range hi, Option.map_some']

/-- A list with entries at two different positions whose images under `f` each
hold an element satisfying `p` has at least two such elements in its
`flatMap`. -/
theorem two_le_countP_flatMap {α β : Type} (l : List α) (f : α → List β) (p : β → Bool)
    (i j : Nat) (hij : i < j) (a b : α) (hi : l[i]? = some a) (hj : l[j]? = some b)
    (ha : ∃ x ∈ f a, p x = true) (hb : ∃ y ∈ f b, p y = true) :
    2 ≤ (l.flatMap f).countP p := by
  have hmem1 : a ∈ l.take j := by
    apply List.getElem?_mem (n := i)
    rw [List.getElem?_take, if_pos hij]; exact hi
  have hmem2 : b ∈ l.drop j := by
    apply List.getElem?_mem (n := 0)
    rw [List.getElem?_drop]; exact hj
  obtain ⟨x, hx, hpx⟩ := ha
  obtain ⟨y, hy, hpy⟩ := hb
  have h1 : 0 < ((l.take j).flatMap f).countP p :=
    List.countP_pos_iff.2 ⟨x, List.mem_flatMap.2 ⟨a, hmem1, hx⟩, hpx⟩
  have h2 : 0 < ((l.drop j).flatMap f).countP p :=
    List.countP_pos_iff.2 ⟨y, List.mem_flatMap.2 ⟨b, hmem2, hy⟩, hpy⟩
  have hsplit : l.flatMap f = (l.take j).flatMap f ++ (l.drop j).flatMap f := by
    rw [← List.flatMap_append, List.take_append_drop]
  rw [hsplit, List.countP_append]
  omega

/-- C8 (as the code has it). For every configured `k ≥ 1` and `n ≥ 1` whose
channel count fits an `int`, `n*k^n ≤ 2^31 - 1`, `_ComputeSize` sets
`_size = k^n`, `_nodes = _size` and `_channels = n * _size`, stores `k` and `n` in
`_k` and `_n` and publishes them as `gK` and `gN`. `k = 4, n = 2` gives size 16
and 32 channels, `k = 2, n = 1` gives size 2 and 2 channels. -/
theorem computeSize32_spec (self : Network) (config : Configuration)
    (hk : 1 ≤ config.k) (hn : 1 ≤ config.n)
    (hfit : config.n * config.k ^ config.n.toNat ≤ 2147483647) :
    ((_ComputeSize32 self config)._size = config.k ^ config.n.toNat ∧
      (_ComputeSize32 self config)._nodes = (_ComputeSize32 self config)._size ∧
      (_ComputeSize32 self config)._channels = config.n * (_ComputeSize32 self config)._size ∧
      (_ComputeSize32 self config)._k = config.k ∧ (_ComputeSize32 self config)._n = config.n ∧
      (_ComputeSize32 self config).gK = config.k ∧ (_ComputeSize32 self config).gN = config.n) ∧
    ((_ComputeSize32 Network.base ⟨4, 2, 0⟩)._size = 16 ∧
      (_ComputeSize32 Network.base ⟨4, 2, 0⟩)._channels = 32) ∧
    ((_ComputeSize32 Network.base ⟨2, 1, 0⟩)._size = 2 ∧
      (_ComputeSize32 Network.base ⟨2, 1, 0⟩)._channels = 2) := by
  refine ⟨⟨rfl, rfl, ?_, rfl, rfl, rfl, rfl⟩, by decide, by decide⟩
  have hpos : 0 ≤ config.n * config.k ^ config.n.toNat := by
    have : 0 ≤ config.k ^ config.n.toNat := pow_nonneg (by omega) _
    exact Int.mul_nonneg (by omega) this
  show wrap32 (config.n * config.k ^ config.n.toNat) = config.n * config.k ^ config.n.toNat
  exact wrap32_of_fits _ (by omega) hfit

theorem computeSize32_spec_witness :
    ((1 : Int) ≤ 3 ∧ (1 : Int) ≤ 2 ∧ (2 : Int) * 3 ^ (2 : Int).toNat ≤ 2147483647) ∧
    ((_ComputeSize32 Network.base ⟨3, 2, 1⟩)._size = 3 ^ (2 : Int).toNat ∧
      (_ComputeSize32 Network.base ⟨3, 2, 1⟩)._nodes
        = (_ComputeSize32 Network.base ⟨3, 2, 1⟩)._size ∧
      (_ComputeSize32 Network.base ⟨3, 2, 1⟩)._channels
        = 2 * (_ComputeSize32 Network.base ⟨3, 2, 1⟩)._size ∧
      (_ComputeSize32 Network.base ⟨3, 2, 1⟩)._k = 3 ∧
      (_ComputeSize32 Network.base ⟨3, 2, 1⟩)._n = 2 ∧
      (_ComputeSize32 Network.base ⟨3, 2, 1⟩).gK = 3 ∧
      (_ComputeSize32 Network.base ⟨3, 2, 1⟩).gN = 2) ∧
    ((_ComputeSize32 Network.base ⟨4, 2, 0⟩)._size = 16 ∧
      (_ComputeSize32 Network.base ⟨4, 2, 0⟩)._channels = 32) ∧
    ((_ComputeSize32 Network.base ⟨2, 1, 0⟩)._size = 2 ∧
      (_ComputeSize32 Network.base ⟨2, 1, 0⟩)._channels = 2) :=
  ⟨by decide, computeSize32_spec Network.base ⟨3, 2, 1⟩ (by decide) (by decide) (by decide)⟩

/-- C8, the claim as written fails: with `k = 2`, `n = 30` the size `2^30` fits
an `int` but the product `30 * 2^30 = 32212254720` does not, and `_ComputeSize`
leaves `_channels = -2147483648`, which is not `n * _size`. -/
theorem computeSize32_spec_counterexample :
    ((1 : Int) ≤ 2 ∧ (1 : Int) ≤ 30) ∧
    (_ComputeSize32 Network.base ⟨2, 30, 0⟩)._size = 1073741824 ∧
    (_ComputeSize32 Network.base ⟨2, 30, 0⟩)._channels = -2147483648 ∧
    (30 : Int) * (_ComputeSize32 Network.base ⟨2, 30, 0⟩)._size = 32212254720 ∧
    (_ComputeSize32 Network.base ⟨2, 30, 0⟩)._channels
      ≠ 30 * (_ComputeSize32 Network.base ⟨2, 30, 0⟩)._size := by
  decide

/-- C3 (as the code has it). For `k ≥ 1` and `n ≥ 1` whose channel count fits an
`int`, `n*k^n ≤ 2^31 - 1`, `_EastChannel(node,dim) = n*node + dim` is a bijection
from the pairs with `0 ≤ node < k^n`, `0 ≤ dim < n` onto `[0, n*k^n)`: it maps the
domain into the range, two pairs of the domain with the same channel are equal,
every channel of the range is the image of a pair, and the image `c` of a pair
gives the pair back as `node = c / n`, `dim = c % n`. -/
theorem eastChannel32_bijection (k n : Int) (hk : 1 ≤ k) (hn : 1 ≤ n)
    (hfit : n * k ^ n.toNat ≤ 2147483647) :
    (∀ node dim : Int, 0 ≤ node → node < k ^ n.toNat → 0 ≤ dim → dim < n →
      (0 ≤ _EastChannel32 n node dim ∧ _EastChannel32 n node dim < n * k ^ n.toNat) ∧
        (_EastChannel32 n node dim).tdiv n = node ∧
        (_EastChannel32 n node dim).tmod n = dim) ∧
    (∀ node dim node' dim' : Int, 0 ≤ node → node < k ^ n.toNat → 0 ≤ dim → dim < n →
      0 ≤ node' → node' < k ^ n.toNat → 0 ≤ dim' → dim' < n →
      _EastChannel32 n node dim = _EastChannel32 n node' dim' → node = node' ∧ dim = dim') ∧
    (∀ c : Int, 0 ≤ c → c < n * k ^ n.toNat →
      ∃ node dim : Int, (0 ≤ node ∧ node < k ^ n.toNat) ∧ (0 ≤ dim ∧ dim < n) ∧
        _EastChannel32 n node dim = c) := by
  obtain ⟨hA, hB, hC⟩ := eastChannel_bijection k n hk hn
  refine ⟨?_, ?_, ?_⟩
  · intro node dim h0 h1 hd0 hd1
    rw [eastChannel32_eq k n node dim hk hn hfit h0 h1 hd0 hd1]
    exact hA node dim h0 h1 hd0 hd1
  · intro node dim node' dim' h0 h1 hd0 hd1 h0' h1' hd0' hd1' h
    rw [eastChannel32_eq k n node dim hk hn hfit h0 h1 hd0 hd1,
      eastChannel32_eq k n node' dim' hk hn hfit h0' h1' hd0' hd1'] at h
    exact hB node dim node' dim' h0 h1 hd0 hd1 h0' h1' hd0' hd1' h
  · intro c hc0 hc1
    obtain ⟨node, dim, ⟨h0, h1⟩, ⟨hd0, hd1⟩, h⟩ := hC c hc0 hc1
    exact ⟨node, dim, ⟨h0, h1⟩, ⟨hd0, hd1⟩,
      by rw [eastChannel32_eq k n node dim hk hn hfit h0 h1 hd0 hd1]; exact h⟩

theorem eastChannel32_bijection_witness :
    ((1 : Int) ≤ 4 ∧ (1 : Int) ≤ 2 ∧ (2 : Int) * 4 ^ (2 : Int).toNat ≤ 2147483647) ∧
    (∀ node dim : Int, 0 ≤ node → node < 4 ^ (2 : Int).toNat → 0 ≤ dim → dim < 2 →
      (0 ≤ _EastChannel32 2 node dim ∧ _EastChannel32 2 node dim < 2 * 4 ^ (2 : Int).toNat) ∧
        (_EastChannel32 2 node dim).tdiv 2 = node ∧
        (_EastChannel32 2 node dim).tmod 2 = dim) ∧
    (∀ node dim node' dim' : Int, 0 ≤ node → node < 4 ^ (2 : Int).toNat → 0 ≤ dim → dim < 2 →
      0 ≤ node' → node' < 4 ^ (2 : Int).toNat → 0 ≤ dim' → dim' < 2 →
      _EastChannel32 2 node dim = _EastChannel32 2 node' dim' → node = node' ∧ dim = dim') ∧
    (∀ c : Int, 0 ≤ c → c < 2 * 4 ^ (2 : Int).toNat →
      ∃ node dim : Int, (0 ≤ node ∧ node < 4 ^ (2 : Int).toNat) ∧ (0 ≤ dim ∧ dim < 2) ∧
        _EastChannel32 2 node dim = c) :=
  ⟨by decide, eastChannel32_bijection 4 2 (by decide) (by decide) (by decide)⟩

/-- C3, the claim as written fails. With `k = 32769`, `n = 2` (`k^n = 1073807361`
fits an `int`) the pair `node = 2^30`, `dim = 0` of the domain gets the channel
`-2147483648`, which is outside `[0, n*k^n)` and does not give `node` back as
`c / n`. With `k = 182`, `n = 4` (`k^n = 1097199376`) the pairs `(0, 0)` and
`(2^30, 0)` of the domain get the same channel 0. -/
theorem eastChannel32_bijection_counterexample :
    (((1 : Int) ≤ 32769 ∧ (1 : Int) ≤ 2 ∧ (0 : Int) ≤ 1073741824 ∧
        (1073741824 : Int) < 32769 ^ (2 : Int).toNat ∧ (0 : Int) ≤ 0 ∧ (0 : Int) < 2) ∧
      _EastChannel32 2 1073741824 0 = -2147483648 ∧
      ¬ (0 ≤ _EastChannel32 2 1073741824 0) ∧
      (_EastChannel32 2 1073741824 0).tdiv 2 ≠ 1073741824) ∧
    (((1 : Int) ≤ 182 ∧ (1 : Int) ≤ 4 ∧ (0 : Int) ≤ 1073741824 ∧
        (1073741824 : Int) < 182 ^ (4 : Int).toNat ∧ (0 : Int) < 182 ^ (4 : Int).toNat ∧
        (0 : Int) < 4) ∧
      _EastChannel32 4 0 0 = 0 ∧ _EastChannel32 4 1073741824 0 = 0 ∧
      _EastChannel32 4 0 0 = _EastChannel32 4 1073741824 0 ∧ (0 : Int) ≠ 1073741824) := by
  decide

/-- C19 (as the code has it). For `k ≥ 1`, `n ≥ 1` whose channel count fits an
`int`, `n*k^n ≤ 2^31 - 1`, `node` in `[0, k^n)` and `dim` in `[0, n)`, the indices
the builder uses are in range: the output channel `_EastChannel(node,dim)` lies
in `[0, n*k^n)`, the neighbour (`_WestNode(node,0)` for `dim = 0`,
`_NorthNode(node,dim)` otherwise) lies in `[0, k^n)`, and the input channel
`_EastChannel(neighbour,dim)` lies in `[0, n*k^n)`. -/
theorem index_safety32 (k n node dim : Int) (hk : 1 ≤ k) (hn : 1 ≤ n)
    (hfit : n * k ^ n.toNat ≤ 2147483647)
    (h0 : 0 ≤ node) (h1 : node < k ^ n.toNat) (hd0 : 0 ≤ dim) (hd1 : dim < n) :
    (0 ≤ _EastChannel32 n node dim ∧ _EastChannel32 n node dim < n * k ^ n.toNat) ∧
    (0 ≤ (if dim = 0 then _WestNode k node 0 else _NorthNode k node dim) ∧
      (if dim = 0 then _WestNode k node 0 else _NorthNode k node dim) < k ^ n.toNat) ∧
    (0 ≤ _EastChannel32 n (if dim = 0 then _WestNode k node 0 else _NorthNode k node dim) dim ∧
      _EastChannel32 n (if dim = 0 then _WestNode k node 0 else _NorthNode k node dim) dim
        < n * k ^ n.toNat) := by
  obtain ⟨hout, hnb, hin⟩ := index_safety k n node dim hk hn h0 h1 hd0 hd1
  rw [eastChannel32_eq k n node dim hk hn hfit h0 h1 hd0 hd1,
    eastChannel32_eq k n _ dim hk hn hfit hnb.1 hnb.2 hd0 hd1]
  exact ⟨hout, hnb, hin⟩

theorem index_safety32_witness :
    ((1 : Int) ≤ 3 ∧ (1 : Int) ≤ 2 ∧ (2 : Int) * 3 ^ (2 : Int).toNat ≤ 2147483647 ∧
      (0 : Int) ≤ 8 ∧ (8 : Int) < 3 ^ (2 : Int).toNat ∧ (0 : Int) ≤ 1 ∧ (1 : Int) < 2) ∧
    (0 ≤ _EastChannel32 2 8 1 ∧ _EastChannel32 2 8 1 < 2 * 3 ^ (2 : Int).toNat) ∧
    (0 ≤ (if (1 : Int) = 0 then _WestNode 3 8 0 else _NorthNode 3 8 1) ∧
      (if (1 : Int) = 0 then _WestNode 3 8 0 else _NorthNode 3 8 1) < 3 ^ (2 : Int).toNat) ∧
    (0 ≤ _EastChannel32 2 (if (1 : Int) = 0 then _WestNode 3 8 0 else _NorthNode 3 8 1) 1 ∧
      _EastChannel32 2 (if (1 : Int) = 0 then _WestNode 3 8 0 else _NorthNode 3 8 1) 1
        < 2 * 3 ^ (2 : Int).toNat) :=
  ⟨by decide, index_safety32 3 2 8 1 (by decide) (by decide) (by decide) (by decide) (by decide)
    (by decide) (by decide)⟩

/-- C19, the claim as written fails: with `k = 32769`, `n = 2` (`k^n = 1073807361`
fits an `int`), `node = 2^30` and `dim = 0`, the output channel index
`_EastChannel(node,dim)` is `-2147483648`, outside `[0, n*k^n)`; and the input
channel index of its onward neighbour `2^30 + 1` along dimension 0, which is
`_EastChannel(_WestNode(2^30 + 1, 0), 0)`, is the same negative number. -/
theorem index_safety32_counterexample :
    ((1 : Int) ≤ 32769 ∧ (1 : Int) ≤ 2 ∧ (0 : Int) ≤ 1073741824 ∧
      (1073741825 : Int) < 32769 ^ (2 : Int).toNat ∧ (0 : Int) ≤ 0 ∧ (0 : Int) < 2) ∧
    _EastChannel32 2 1073741824 0 = -2147483648 ∧
    ¬ (0 ≤ _EastChannel32 2 1073741824 0 ∧
        _EastChannel32 2 1073741824 0 < 2 * 32769 ^ (2 : Int).toNat) ∧
    _WestNode 32769 1073741825 0 = 1073741824 ∧
    ¬ (0 ≤ _EastChannel32 2 (_WestNode 32769 1073741825 0) 0) := by
  decide

/-- C1 (as the code has it). For `k ≥ 1` and `n ≥ 1` whose channel count fits an
`int`, `n*k^n ≤ 2^31 - 1`, the constructor returns a network in which every
channel identity `c` in `[0, n*k^n)` is bound by exactly one `AddOutputChannel`
call and by exactly one `AddInputChannel` call, counted over the routers of all
nodes: no torus channel is left unbound or bound twice on either side. -/
theorem port_coverage32 (config : Configuration) (hk : 1 ≤ config.k) (hn : 1 ≤ config.n)
    (hfit : config.n * config.k ^ config.n.toNat ≤ 2147483647) :
    ∃ net, construct32 config = Except.ok net ∧
      ∀ c : Int, 0 ≤ c → c < config.n * config.k ^ config.n.toNat →
        (net._routers.flatMap Router.output_channels).countP
            (fun p => p.1 = ChannelRef._chan c) = 1 ∧
        (net._routers.flatMap Router.input_channels).countP
            (fun p => p.1 = ChannelRef._chan c) = 1 := by
  obtain ⟨k, n, flag⟩ := config
  simp only at hk hn hfit ⊢
  refine ⟨_, construct32_eq _, ?_⟩
  intro c hc0 hc1
  lift k to ℕ using (by omega)
  lift n to ℕ using (by omega)
  lift c to ℕ using hc0
  have hk' : 0 < k := by omega
  have hn' : 0 < n := by omega
  have hS : powi (k : Int) (n : Int) = ((k ^ n : Nat) : Int) := powi_natCast k n
  have hc : c < n * k ^ n := by
    simp only [Int.toNat_ofNat] at hc1; exact_mod_cast hc1
  have hfit' : n * k ^ n ≤ 2147483647 := by
    simp only [Int.toNat_ofNat] at hfit; exact_mod_cast hfit
  have hdiv : c / n < k ^ n := by
    rw [Nat.div_lt_iff_lt_mul hn', Nat.mul_comm]; exact hc
  have hmod : c % n < n := Nat.mod_lt _ hn'
  simp only [hS, Int.toNat_ofNat, List.flatMap_map, nodeRouter32, torusOutputs32, torusInputs32]
  constructor
  · apply torus_count (k ^ n) n (fun i d => _EastChannel32 (n : Int) (i : Int) (d : Int))
      (fun i => (ChannelRef._eject (i : Int), ChannelRef._eject_cred (i : Int))) (c : Int)
      (by intro i; simp) (c / n) (c % n) hdiv hmod
    intro i d hi hd
    rw [eastChannel32_natCast k n i d hfit' hi hd, Nat.cast_inj]
    exact channel_decomp n i d c hd
  · apply torus_count (k ^ n) n
      (fun i d => _EastChannel32 (n : Int) (neighbor_node (k : Int) (i : Int) (d : Int)) (d : Int))
      (fun i => (ChannelRef._inject (i : Int), ChannelRef._inject_cred (i : Int))) (c : Int)
      (by intro i; simp) (sinkN k (c / n) (c % n)) (c % n)
      (sinkN_lt k n _ _ hk' hmod hdiv) hmod
    intro i d hi hd
    rw [neighbor_node_natCast k i d hk',
      eastChannel32_natCast k n _ d hfit' (nbrN_lt k n i d hk' hd hi) hd, Nat.cast_inj,
      channel_decomp n _ d c hd]
    constructor
    · rintro ⟨h1, h2⟩
      refine ⟨?_, h2⟩
      rw [← h1, ← h2, sinkN_nbrN k i d hk']
    · rintro ⟨h1, h2⟩
      refine ⟨?_, h2⟩
      rw [h1, h2, nbrN_sinkN k _ _ hk']

theorem port_coverage32_witness :
    ((1 : Int) ≤ 3 ∧ (1 : Int) ≤ 2 ∧ (2 : Int) * 3 ^ (2 : Int).toNat ≤ 2147483647) ∧
    ∃ net, construct32 ⟨3, 2, 0⟩ = Except.ok net ∧
      ∀ c : Int, 0 ≤ c → c < 2 * 3 ^ (2 : Int).toNat →
        (net._routers.flatMap Router.output_channels).countP
            (fun p => p.1 = ChannelRef._chan c) = 1 ∧
        (net._routers.flatMap Router.input_channels).countP
            (fun p => p.1 = ChannelRef._chan c) = 1 :=
  ⟨by decide, port_coverage32 ⟨3, 2, 0⟩ (by decide) (by decide) (by decide)⟩

/-- C1, the claim as written fails: with `k = 182`, `n = 4` (`k^n = 1097199376`
fits an `int`, `n*k^n` does not) the routers of node 0 and of node `2^30` both
have `_chan[0]` as their output for dimension 0, because `4 * 2^30` wraps to 0,
so the channel identity 0 of `[0, n*k^n)` is bound by at least two
`AddOutputChannel` calls and not by exactly one. -/
theorem port_coverage32_counterexample :
    ((1 : Int) ≤ 182 ∧ (1 : Int) ≤ 4 ∧ (0 : Int) < 4 * 182 ^ (4 : Int).toNat) ∧
    ∃ net, construct32 ⟨182, 4, 0⟩ = Except.ok net ∧
      (∃ r, net._routers[0]? = some r ∧
        r.output_channels[0]? = some (ChannelRef._chan 0, ChannelRef._chan_cred 0)) ∧
      (∃ r, net._routers[1073741824]? = some r ∧
        r.output_channels[0]? = some (ChannelRef._chan 0, ChannelRef._chan_cred 0)) ∧
      2 ≤ (net._routers.flatMap Router.output_channels).countP
            (fun p => p.1 = ChannelRef._chan 0) ∧
      (net._routers.flatMap Router.output_channels).countP
            (fun p => p.1 = ChannelRef._chan 0) ≠ 1 := by
  have hS0 : 0 < (powi 182 4).toNat := by decide
  have hS1 : 1073741824 < (powi 182 4).toNat := by decide
  obtain ⟨net, hnet, hr0⟩ := routers32_getElem ⟨182, 4, 0⟩ 0 hS0
  obtain ⟨net', hnet', hr1⟩ := routers32_getElem ⟨182, 4, 0⟩ 1073741824 hS1
  have hnn : net' = net := by
    rw [hnet] at hnet'; exact (Except.ok.inj hnet').symm
  subst hnn
  have ho0 : (nodeRouter32 182 4 (powi 182 4) ((0 : Nat) : Int)).output_channels[0]?
      = some (ChannelRef._chan 0, ChannelRef._chan_cred 0) := by
    rw [torusOutputs32_getElem 182 4 _ 0 (by decide)]
    decide
  have ho1 : (nodeRouter32 182 4 (powi 182 4) ((1073741824 : Nat) : Int)).output_channels[0]?
      = some (ChannelRef._chan 0, ChannelRef._chan_cred 0) := by
    rw [torusOutputs32_getElem 182 4 _ 0 (by decide)]
    decide
  have hcount := two_le_countP_flatMap net'._routers Router.output_channels
    (fun p => p.1 = ChannelRef._chan 0) 0 1073741824 (by decide) _ _ hr0 hr1
    ⟨_, List.getElem?_mem ho0, by simp⟩ ⟨_, List.getElem?_mem ho1, by simp⟩
  exact ⟨by decide, net', hnet, ⟨_, hr0, ho0⟩, ⟨_, hr1, ho1⟩, hcount, by omega⟩

end UnidirectionalTorus
